import Mathlib

/-!
Verification development for `scripts/gen_reject.py`: a shallow embedding of
the rule model, the two format adapters, the dynamic-label promoter, the
suffix-generalization engine and the assembler, together with theorems about
the behaviour of these functions.

Modelling conventions:
* Python `str` values are Lean `String`s; the string algorithms of the script
  (`str.split`, `str.strip`, `str.splitlines`, `",".join`, regular-expression
  helpers) are embedded as executable functions on `List Char`.
* Python whitespace and line-break classes are modelled on their ASCII /
  Latin-1 portion (the only characters the script's data ever contains);
  the exotic Unicode members of those classes are not modelled.
* `set` values used only for membership (`removed`, `existing_rules`, `seen`)
  are modelled as lists queried with `∈`; `set` values whose size is taken
  (`active_indexes`, `options_set`) are modelled as duplicate-free lists, so
  that `List.length` agrees with the Python set cardinality.
* The engine additionally records a ghost log `emissions` of every
  generalized rule it emits together with the key it was emitted from and
  the support indices it consumed; the fields used by `simplify_rules`
  (`removed`, `generalized`, `existing`) are computed exactly as in the code.
-/

set_option maxRecDepth 4096
set_option maxHeartbeats 1000000

/-- Python whitespace test (`str.strip`, `\s` of the `re` module), restricted
to the ASCII / Latin-1 whitespace characters. -/
def isPySpace (c : Char) : Bool :=
  c = ' ' || c = '\t' || c = '\n' || c = '\r' || c = '\x0b' || c = '\x0c' ||
  c = '\x1c' || c = '\x1d' || c = '\x1e' || c = '\x1f' || c = '\x85' || c = '\xa0'

/-- Python `str.splitlines` line-break class (ASCII / Latin-1 portion plus the
two Unicode separators). -/
def isLineBreak (c : Char) : Bool :=
  c = '\n' || c = '\r' || c = '\x0b' || c = '\x0c' ||
  c = '\x1c' || c = '\x1d' || c = '\x1e' || c = '\x85' ||
  c = '\u2028' || c = '\u2029'

/-- Python `str.strip()` on a character list: drop leading and trailing
whitespace. -/
def pyStripL (l : List Char) : List Char :=
  ((l.dropWhile isPySpace).reverse.dropWhile isPySpace).reverse

/-- Python `str.strip()`. -/
def pyStrip (s : String) : String :=
  List.asString (pyStripL s.data)

/-- Python `str.split(sep)` for a one-character separator: splits at every
occurrence, keeping empty pieces (`"".split(".") == [""]`). -/
def splitOnChar (sep : Char) : List Char → List (List Char)
  | [] => [[]]
  | c :: rest =>
    if c = sep then [] :: splitOnChar sep rest
    else
      match splitOnChar sep rest with
      | [] => [[c]]
      | h :: t => (c :: h) :: t

/-- Python `sep.join(parts)` on character lists. -/
def intercalateL (sep : List Char) : List (List Char) → List Char
  | [] => []
  | [p] => p
  | p :: q :: rest => p ++ sep ++ intercalateL sep (q :: rest)

/-- Python `str.splitlines()`: break after every line terminator, treating
`"\r\n"` as a single terminator; no trailing empty line for a terminal
terminator, and the empty string yields no lines. -/
def splitLinesL : List Char → List (List Char)
  | [] => []
  | c :: rest =>
    if isLineBreak c then
      match c, rest with
      | '\r', '\n' :: r => [] :: splitLinesL r
      | _, r => [] :: splitLinesL r
    else
      match splitLinesL rest with
      | [] => [[c]]
      | h :: t => (c :: h) :: t

/-- Does this character list begin with one of the comment markers `#`, `//`,
`;`? (Both the whole-line comment test and the inline-comment regex use this
alternative.) -/
def isMarkerStart (l : List Char) : Bool :=
  match l with
  | [] => false
  | c :: rest => c = '#' || c = ';' || (c = '/' && rest.head? = some ('/'))

/-- The substitution of `INLINE_COMMENT_RE = re.compile(r"\s+(#|//|;).*$")`
with the empty string, on a line that contains no line-break characters: cut
the line at the leftmost position where a whitespace run is immediately
followed by a comment marker. -/
def stripInlineAux : List Char → List Char
  | [] => []
  | c :: rest =>
    if isPySpace c && isMarkerStart (rest.dropWhile isPySpace) then []
    else c :: stripInlineAux rest

/-- Does the inline-comment pattern match anywhere in the line? -/
def hasTrigger : List Char → Bool
  | [] => false
  | c :: rest =>
    (isPySpace c && isMarkerStart (rest.dropWhile isPySpace)) || hasTrigger rest

/-- `strip_inline_comment`: remove a trailing inline comment, then strip. -/
def strip_inline_comment (s : String) : String :=
  List.asString (pyStripL (stripInlineAux s.data))

/-- Python `str.upper()`, ASCII portion (non-ASCII case mappings are not
modelled; the script only upcases rule-type tokens). -/
def pyUpperChar (c : Char) : Char :=
  if 'a' ≤ c && c ≤ 'z' then Char.ofNat (c.toNat - 32) else c

/-- Python `str.lower()`, ASCII portion (non-ASCII case mappings are not
modelled; the script only downcases domain names). -/
def pyLowerChar (c : Char) : Char :=
  if 'A' ≤ c && c ≤ 'Z' then Char.ofNat (c.toNat + 32) else c

/-- Python `str.upper()` on a string. -/
def pyUpper (s : String) : String :=
  List.asString (s.data.map pyUpperChar)

/-- Python `str.lower()` on a string. -/
def pyLower (s : String) : String :=
  List.asString (s.data.map pyLowerChar)

/-- The characters escaped by `re.escape` (CPython ≥ 3.7: exactly the
characters that can have special meaning in a regular expression). -/
def reSpecial (c : Char) : Bool :=
  c = '(' || c = ')' || c = '[' || c = ']' || c = '\x7b' || c = '\x7d' ||
  c = '?' || c = '*' || c = '+' || c = '-' || c = '|' || c = '^' || c = '$' ||
  c = '\\' || c = '.' || c = '&' || c = '~' || c = '#' || c = ' ' ||
  c = '\t' || c = '\n' || c = '\r' || c = '\x0b' || c = '\x0c'

/-- `re.escape`: prefix every special character with a backslash. -/
def reEscapeL : List Char → List Char
  | [] => []
  | c :: rest => (if reSpecial c then ['\\', c] else [c]) ++ reEscapeL rest

/-- `re.escape` on a string. -/
def reEscape (s : String) : String :=
  List.asString (reEscapeL s.data)

/-- The canonical rule value: `@dataclass(frozen=True) class Rule` with fields
`rtype`, `value` and `options` (a tuple of strings). -/
structure Rule where
  rtype : String
  value : String
  options : List String
deriving DecidableEq, Repr

/-- `Rule.to_line`: `",".join((self.rtype, self.value, *self.options))`. -/
def Rule.to_line (r : Rule) : String :=
  List.asString (intercalateL [','] ((r.rtype :: r.value :: r.options).map String.data))

/-- One upstream source: `@dataclass(frozen=True) class Source`. -/
structure Source where
  kind : String
  url : String
  description : String
deriving DecidableEq, Repr

/-- The compiled-in source list `SOURCES`. -/
def SOURCES : List Source :=
  [ ⟨"quanx",
     "https://raw.githubusercontent.com/enriquephl/QuantumultX_config/main/filters/NoMalwares.conf",
     "NoMalwares (Quantumult X)"⟩,
    ⟨"quanx",
     "https://raw.githubusercontent.com/Elysian-Realme/FuGfConfig/main/ConfigFile/QuantumultX/FuckRogueSoftwareRules.conf",
     "FuckRogueSoftwareRules (Quantumult X)"⟩,
    ⟨"surge",
     "https://raw.githubusercontent.com/SukkaLab/ruleset.skk.moe/master/List/non_ip/reject-no-drop.conf",
     "Reject No Drop (Surge)"⟩ ]

/-- `TYPE_MAP_QUANX`: the Quantumult X type-rename table, as a lookup. -/
def TYPE_MAP_QUANX (k : String) : Option String :=
  if k = "HOST" then some ("DOMAIN")
  else if k = "HOST-SUFFIX" then some ("DOMAIN-SUFFIX")
  else if k = "HOST-KEYWORD" then some ("DOMAIN-KEYWORD")
  else if k = "HOST-WILDCARD" then some ("DOMAIN-WILDCARD")
  else if k = "HOST-REGEX" then some ("DOMAIN-REGEX")
  else if k = "IP-CIDR" then some ("IP-CIDR")
  else if k = "IP6-CIDR" then some ("IP-CIDR6")
  else none

/-- `TYPE_ORDER.get(rtype, 99)`: the fixed type-priority ranking. -/
def TYPE_ORDER (t : String) : Nat :=
  if t = "DOMAIN" then 0
  else if t = "DOMAIN-SUFFIX" then 1
  else if t = "DOMAIN-KEYWORD" then 2
  else if t = "DOMAIN-WILDCARD" then 3
  else if t = "DOMAIN-REGEX" then 4
  else if t = "IP-CIDR" then 5
  else if t = "IP-CIDR6" then 6
  else 99

/-- `kind in DOMAIN_LIKE_TYPES`. -/
def isDomainLike (t : String) : Bool :=
  t = "DOMAIN" || t = "DOMAIN-SUFFIX" || t = "DOMAIN-KEYWORD" || t = "DOMAIN-WILDCARD"

/-- Does `REGEX_HAS_BOUNDARY = re.compile(r"^\^.*\$$")` match this (already
stripped, hence newline-free at the end) value?  The pattern requires a
leading literal `^`, then `.*` (which cannot cross a newline), then a literal
`$` at the very end. -/
def hasBoundaryL (l : List Char) : Bool :=
  l.head? = some ('^') && !l.tail.isEmpty &&
  l.tail.getLast? = some ('$') && !(l.tail.dropLast.contains '\n')

/-- `normalize_regex` on a character list: strip, and unless the boundary
pattern already matches, prepend `^` when missing and append `$` when
missing. -/
def normalizeRegexL (l : List Char) : List Char :=
  let v := pyStripL l
  if hasBoundaryL v then v
  else
    let v1 := if v.head? = some ('^') then v else '^' :: v
    if v1.getLast? = some ('$') then v1 else v1 ++ ['$']

/-- `normalize_regex`. -/
def normalize_regex (s : String) : String :=
  List.asString (normalizeRegexL s.data)

/-- The per-line body of `parse_quanx`, acting on one line produced by
`splitlines` (so the line holds no line-break characters); returns the parsed
rule, or `none` when the line is skipped.  The "unsupported rule type"
warning is a diagnostic on stderr and is not modelled. -/
def parseQuanxLineL (raw_line : List Char) : Option Rule :=
  let line := pyStripL raw_line
  if line.isEmpty || isMarkerStart line then none
  else
    let line := pyStripL (stripInlineAux line)
    if line.isEmpty then none
    else
      let parts := (splitOnChar ',' line).map pyStripL
      if parts.length < 2 then none
      else
        let kind_raw := (parts.headD []).map pyUpperChar
        match TYPE_MAP_QUANX (List.asString kind_raw) with
        | none => none
        | some kind =>
          let value := pyStripL (parts.getD 1 [])
          if value.isEmpty then none
          else
            let remainder := (parts.drop 2).filter (fun p => !p.isEmpty)
            let options :=
              if remainder.isEmpty then []
              else (remainder.drop 1).filterMap (fun it =>
                let s := pyStripL it
                if s.isEmpty then none else some (List.asString s))
            let value := if isDomainLike kind then value.map pyLowerChar else value
            let value := if kind = "DOMAIN-REGEX" then normalizeRegexL value else value
            some (Rule.mk kind (List.asString value) options)

/-- `parse_quanx`: split the content into lines and parse each line. -/
def parse_quanx (content : String) : List Rule :=
  (splitLinesL content.data).filterMap parseQuanxLineL

/-- The per-line body of `parse_surge`, acting on one line produced by
`splitlines`. -/
def parseSurgeLineL (raw_line : List Char) : Option Rule :=
  let line := pyStripL raw_line
  if line.isEmpty || isMarkerStart line then none
  else
    let line := pyStripL (stripInlineAux line)
    if line.isEmpty then none
    else
      let parts := (splitOnChar ',' line).map pyStripL
      if parts.length < 2 then none
      else
        let kind := List.asString ((parts.headD []).map pyUpperChar)
        let value := pyStripL (parts.getD 1 [])
        if value.isEmpty then none
        else
          let value := if isDomainLike kind then value.map pyLowerChar else value
          let options :=
            if parts.length > 2 then
              (parts.drop 2).filterMap (fun it =>
                let s := pyStripL it
                if s.isEmpty then none else some (List.asString s))
            else []
          let value := if kind = "DOMAIN-REGEX" then normalizeRegexL value else value
          some (Rule.mk kind (List.asString value) options)

/-- `parse_surge`: split the content into lines and parse each line. -/
def parse_surge (content : String) : List Rule :=
  (splitLinesL content.data).filterMap parseSurgeLineL

/-- `value.split(".")` as a list of strings. -/
def labelsOf (s : String) : List String :=
  (splitOnChar '.' s.data).map List.asString

/-- `".".join(labels)`. -/
def joinDotS (ls : List String) : String :=
  List.asString (intercalateL ['.'] (ls.map String.data))

/-- Python `enumerate`, with an explicit start index. -/
def enumL {α : Type} (n : Nat) : List α → List (Nat × α)
  | [] => []
  | a :: rest => (n, a) :: enumL (n + 1) rest

/-- The dynamic-label test of `promote_dynamic_labels`:
`LABEL_WITH_DIGITS.search(label) and len(label) >= 4`. -/
def isDynamicLabel (l : String) : Bool :=
  l.data.any Char.isDigit && decide (4 ≤ l.data.length)

/-- `promote_dynamic_labels`: rewrite a DOMAIN rule whose value has ≥ 3 labels
and at least one dynamic label among the labels other than the last two,
replacing each dynamic label with `*`; otherwise return nothing. -/
def promote_dynamic_labels (rule : Rule) : Option Rule :=
  if rule.rtype = "DOMAIN" then
    let labels := labelsOf rule.value
    if labels.length < 3 then none
    else
      let dynamic_positions : List Nat :=
        (enumL 0 (labels.take (labels.length - 2))).filterMap
          (fun p => if isDynamicLabel p.2 then some p.1 else none)
      if dynamic_positions.isEmpty then none
      else
        let new_labels :=
          (enumL 0 labels).map (fun p => if p.1 ∈ dynamic_positions then ("*" : String) else p.2)
        some (Rule.mk ("DOMAIN-WILDCARD") (joinDotS new_labels) rule.options)
  else none

/-- One entry of the ghost emission log: the candidate key the generalized
rule was emitted from, the rule itself, and the active support indices it
consumed. -/
structure Emission where
  key : List String × Nat
  rule : Rule
  consumed : List Nat
deriving DecidableEq, Repr

/-- The mutable state of the greedy candidate loop of `simplify_rules`:
`removed`, `generalized` and `existing_rules`, plus the ghost log. -/
structure EngState where
  removed : List Nat
  generalized : List Rule
  existing : List Rule
  emissions : List Emission
deriving Repr

/-- The candidate keys one rule is indexed under (the body of the
`suffix_map` loop): for each suffix length from 2 to
`min(len(labels) - 1, 5)`, the pair (last `suffix_len` labels,
`len(labels) - suffix_len`). -/
def keysForRule (r : Rule) : List (List String × Nat) :=
  let labels := labelsOf r.value
  if labels.length < 3 then []
  else
    let maxS := min (labels.length - 1) 5
    (List.range' 2 (maxS - 1)).filterMap (fun suffix_len =>
      let suffix := labels.drop (labels.length - suffix_len)
      let prefix_count := labels.length - suffix_len
      if prefix_count < 1 then none else some (suffix, prefix_count))

/-- `suffix_map[key].add(idx)` on an insertion-ordered association list with
set-semantics index lists. -/
def addToMap (m : List ((List String × Nat) × List Nat))
    (k : List String × Nat) (i : Nat) : List ((List String × Nat) × List Nat) :=
  match m with
  | [] => [(k, [i])]
  | e :: rest =>
    if e.1 = k then (e.1, if i ∈ e.2 then e.2 else e.2 ++ [i]) :: rest
    else e :: addToMap rest k i

/-- Build `suffix_map` by walking `remaining` with its enumeration index,
indexing every DOMAIN rule under all of its candidate keys. -/
def buildMapAux : Nat → List Rule → List ((List String × Nat) × List Nat) →
    List ((List String × Nat) × List Nat)
  | _, [], m => m
  | idx, r :: rest, m =>
    buildMapAux (idx + 1) rest
      (if r.rtype = "DOMAIN" then (keysForRule r).foldl (fun m' k => addToMap m' k idx) m
       else m)

/-- `suffix_map` for a remaining-rule list. -/
def buildSuffixMap (remaining : List Rule) : List ((List String × Nat) × List Nat) :=
  buildMapAux 0 remaining []

/-- The candidate ranking `candidate_key(item) = (-len(suffix), prefix_count,
-len(indexes))`, expressed as a boolean "less or equal" for a stable sort. -/
def candLe (a b : (List String × Nat) × List Nat) : Bool :=
  if a.1.1.length ≠ b.1.1.length then decide (b.1.1.length < a.1.1.length)
  else if a.1.2 ≠ b.1.2 then decide (a.1.2 < b.1.2)
  else decide (b.2.length ≤ a.2.length)

/-- Insert into a sorted list, before the first element it is `le` to
(a stable insertion: an element inserted from the left of equals stays left). -/
def insertLe {α : Type} (le : α → α → Bool) (a : α) : List α → List α
  | [] => [a]
  | b :: bs => if le a b then a :: b :: bs else b :: insertLe le a bs

/-- Stable insertion sort; extensionally equal to Python's stable `sorted`
for a total preorder comparator. -/
def sortLe {α : Type} (le : α → α → Bool) : List α → List α
  | [] => []
  | a :: rest => insertLe le a (sortLe le rest)

/-- The generalized rule built from an accepted candidate: for
`prefix_count == 1` the wildcard `Rule("DOMAIN-WILDCARD", f"*.\x7bsuffix_str\x7d",
options)`, otherwise the anchored regex
`f"^\x7bprefix_pattern\x7d\\\\.\x7bescaped_suffix\x7d$"` with one `[^.]+` group per
prefix label and the regex-escaped suffix. -/
def genRuleFor (suffix_str : String) (prefix_count : Nat) (options : List String) : Rule :=
  if prefix_count = 1 then Rule.mk ("DOMAIN-WILDCARD") ("*." ++ suffix_str) options
  else
    let prefix_pattern :=
      intercalateL ['\\', '.'] (List.replicate prefix_count ['[', '^', '.', ']', '+'])
    let regex :=
      List.asString ('^' :: (prefix_pattern ++ '\\' :: '.' :: reEscapeL suffix_str.data ++ ['$']))
    Rule.mk ("DOMAIN-REGEX") regex options

/-- One iteration of the greedy candidate loop of `simplify_rules`. -/
def stepCandidate (remaining : List Rule) (st : EngState)
    (cand : (List String × Nat) × List Nat) : EngState :=
  let suffix := cand.1.1
  let prefix_count := cand.1.2
  let active_indexes := cand.2.filter (fun i => decide (i ∉ st.removed))
  if active_indexes.length < 2 then st
  else
    let options_list := active_indexes.map (fun i => (remaining.getD i (Rule.mk ("") ("") [])).options)
    if options_list.dedup.length ≠ 1 then st
    else
      let options := options_list.headD []
      let suffix_str := joinDotS suffix
      if suffix.length < 2 ∨ suffix_str ∈ (["com", "net", "org", "cn"] : List String) then st
      else
        let new_rule := genRuleFor suffix_str prefix_count options
        if new_rule ∈ st.existing then st
        else
          ⟨st.removed ++ active_indexes, st.generalized ++ [new_rule],
           st.existing ++ [new_rule],
           st.emissions ++ [⟨(suffix, prefix_count), new_rule, active_indexes⟩]⟩

/-- The whole suffix-generalization engine: build the candidate map, rank the
candidates, and run the greedy loop (`existing_rules` starts as the set of
remaining rules). -/
def runEngine (remaining : List Rule) : EngState :=
  (sortLe candLe (buildSuffixMap remaining)).foldl (stepCandidate remaining) ⟨[], [], remaining, []⟩

/-- The rules not consumed by the promoter (`remaining` in `simplify_rules`).
A dataclass instance is always truthy, so `if promoted_rule:` is an
`is not None` test. -/
def remainingOf (rules : List Rule) : List Rule :=
  rules.filter (fun r => (promote_dynamic_labels r).isNone)

/-- The final dedup-keeping-first-occurrence pass of `simplify_rules`. -/
def dedupAux (seen : List Rule) : List Rule → List Rule
  | [] => []
  | r :: rest => if r ∈ seen then dedupAux seen rest else r :: dedupAux (seen ++ [r]) rest

/-- `sorted(generalized, key=lambda rule: (TYPE_ORDER.get(rule.rtype, 99),
rule.value))` as a boolean comparator (`generalized` is kept in emission
order; a Python `set` iterates in an unspecified order, and the claims
proved below do not depend on the relative order of tied elements). -/
def ruleSortLe (a b : Rule) : Bool :=
  decide (TYPE_ORDER a.rtype < TYPE_ORDER b.rtype) ||
  (decide (TYPE_ORDER a.rtype = TYPE_ORDER b.rtype) && decide (¬ b.value < a.value))

/-- `simplify_rules`: promote, generalize by shared suffix, assemble, dedup. -/
def simplify_rules (rules : List Rule) : List Rule :=
  let promoted := rules.filterMap promote_dynamic_labels
  let remaining := remainingOf rules
  let st := runEngine remaining
  let simplified :=
    ((enumL 0 remaining).filter (fun p => decide (p.1 ∉ st.removed))).map Prod.snd
    ++ sortLe ruleSortLe st.generalized ++ promoted
  dedupAux [] simplified

/-- `item.partition(",")` restricted to the two components the sort key
uses: the part before the first comma and the part after it. -/
def partComma : List Char → List Char × List Char
  | [] => ([], [])
  | c :: rest =>
    if c = ',' then ([], rest)
    else
      let p := partComma rest
      (c :: p.1, p.2)

/-- The sort key of `sort_rules`: `(TYPE_ORDER.get(rule_type, 99), rule_type,
remainder)`, as a boolean comparator. -/
def lineLe (a b : String) : Bool :=
  let pa := partComma a.data
  let pb := partComma b.data
  let ta := List.asString pa.1
  let tb := List.asString pb.1
  decide (TYPE_ORDER ta < TYPE_ORDER tb) ||
  (decide (TYPE_ORDER ta = TYPE_ORDER tb) &&
    (decide (ta < tb) ||
      (decide (ta = tb) && decide (¬ (List.asString pb.2 < List.asString pa.2)))))

/-- `sort_rules`. -/
def sort_rules (lines : List String) : List String :=
  sortLe lineLe lines

/-- `fetch_text`, with the network modelled as an oracle
`fetch : url → Except error text`; a transport error becomes the
`SystemExit` message `"Failed to download {url}: {exc}"`. -/
def fetch_text (fetch : String → Except String String) (url : String) :
    Except String String :=
  match fetch url with
  | Except.ok t => Except.ok t
  | Except.error e => Except.error ("Failed to download " ++ url ++ ": " ++ e)

/-- The outcome of one run of `main`: whether it exited successfully, the
fatal error message if not, the body lines written to the output file (none
when the run aborted), and the URLs for which a fetch was attempted. -/
structure RunOutcome where
  success : Bool
  errMsg : Option String
  written : Option (List String)
  attempted : List String
deriving Repr

/-- The `collected`/`seen` accumulation of `main`: append the parsed rules
that are not already collected, keeping first-seen order. -/
def dedupAppend (collected : List Rule) (new : List Rule) : List Rule :=
  new.foldl (fun acc r => if r ∈ acc then acc else acc ++ [r]) collected

/-- The source loop of `main`: fetch and parse each source in order,
aborting on the first fetch failure; also returns the attempted URLs. -/
def runFetchLoop (fetch : String → Except String String) :
    List Source → List Rule → List String → List String × Except String (List Rule)
  | [], collected, attempted => (attempted, Except.ok collected)
  | s :: rest, collected, attempted =>
    match fetch_text fetch s.url with
    | Except.error msg => (attempted ++ [s.url], Except.error msg)
    | Except.ok text =>
      let parsed := if s.kind = "quanx" then parse_quanx text else parse_surge text
      runFetchLoop fetch rest (dedupAppend collected parsed) (attempted ++ [s.url])

/-- `main`, with network I/O as an oracle: on the first fetch failure the run
aborts with the error message and writes nothing; otherwise it writes the
sorted simplified rule lines (the provenance header block, whose content is a
fixed function of `SOURCES` and the wall clock, is not part of the model). -/
def mainModel (fetch : String → Except String String) : RunOutcome :=
  match runFetchLoop fetch SOURCES [] [] with
  | (att, Except.error msg) => ⟨false, some msg, none, att⟩
  | (att, Except.ok collected) =>
    ⟨true, none, some (sort_rules ((simplify_rules collected).map Rule.to_line)), att⟩

/-! ### Predicates used by the claim statements -/

/-- Full-string match of the glob `*.<suffix_str>` in the sense of claim C1:
the value is one dot-free label, a literal dot, then the suffix string. -/
def wildcardShapeMatch (suffix_str v : String) : Prop :=
  ∃ lab : List Char, ('.' ∉ lab) ∧ v.data = lab ++ '.' :: suffix_str.data

/-- Full-string match of the emitted pattern
`^[^.]+(\.[^.]+)*\.<escaped suffix_str>$` with exactly `pc` label groups:
the value is `pc` non-empty dot-free groups, each followed by a literal dot,
then the (literal) suffix string.  (`re.escape` makes the suffix literal.) -/
def regexShapeMatch (pc : Nat) (suffix_str v : String) : Prop :=
  ∃ parts : List (List Char), parts.length = pc ∧ (∀ p ∈ parts, p ≠ [] ∧ '.' ∉ p) ∧
    v.data = parts.foldr (fun p acc => p ++ '.' :: acc) suffix_str.data

/-- The lax variant of `regexShapeMatch` that allows empty label groups —
this is what the engine actually guarantees for its consumed rules. -/
def regexShapeMatchLax (pc : Nat) (suffix_str v : String) : Prop :=
  ∃ parts : List (List Char), parts.length = pc ∧ (∀ p ∈ parts, '.' ∉ p) ∧
    v.data = parts.foldr (fun p acc => p ++ '.' :: acc) suffix_str.data

/-- Claim C1 as stated: every rule consumed by an emission of the suffix
engine matches the emitted pattern as a full string (wildcard glob for
`prefix_count == 1`, anchored regex with non-empty `[^.]+` groups
otherwise). -/
def C1Statement (rules : List Rule) : Prop :=
  ∀ e ∈ (runEngine (remainingOf rules)).emissions, ∀ i ∈ e.consumed,
    ∀ r, (remainingOf rules).get? i = some r →
      (e.key.2 = 1 → wildcardShapeMatch (joinDotS e.key.1) r.value) ∧
      (1 < e.key.2 → regexShapeMatch e.key.2 (joinDotS e.key.1) r.value)

/-- Claim C8 as stated: for every line the Quantumult-style adapter accepts,
the rule options are the comma-separated fields after the value with exactly
the first such field dropped. -/
def C8Statement : Prop :=
  ∀ (l : List Char) (r : Rule), parseQuanxLineL l = some r →
    r.options =
      (((((splitOnChar ',' (pyStripL (stripInlineAux (pyStripL l)))).map pyStripL).drop 2).drop 1).map List.asString)

/-- What `buildSuffixMap` guarantees for one candidate entry: duplicate-free
support indices, each the index of a DOMAIN rule of `remaining` that is
indexed under this candidate key. -/
def CandOK (remaining : List Rule) (cand : (List String × Nat) × List Nat) : Prop :=
  cand.2.Nodup ∧
  ∀ i ∈ cand.2, ∃ r, remaining.get? i = some r ∧ r.rtype = "DOMAIN" ∧ cand.1 ∈ keysForRule r

/-- What holds of every entry of the emission log: at least two distinct
consumed support indices, a suffix of at least two labels, every consumed
index supports the emission key, and the emitted rule is the generalized
rule built from the key. -/
def EmissionOK (remaining : List Rule) (e : Emission) : Prop :=
  2 ≤ e.consumed.length ∧ e.consumed.Nodup ∧ 2 ≤ e.key.1.length ∧
  (∀ i ∈ e.consumed, ∃ r, remaining.get? i = some r ∧ r.rtype = "DOMAIN" ∧ e.key ∈ keysForRule r) ∧
  (∃ opts, e.rule = genRuleFor (joinDotS e.key.1) e.key.2 opts)

/-- The loop invariant of the greedy candidate pass: every logged emission is
well-formed, its consumed indices are recorded in `removed`, and no index is
consumed by two different emissions. -/
def EngInv (remaining : List Rule) (st : EngState) : Prop :=
  (∀ e ∈ st.emissions, EmissionOK remaining e) ∧
  (∀ e ∈ st.emissions, ∀ i ∈ e.consumed, i ∈ st.removed) ∧
  st.emissions.Pairwise (fun a b => ∀ i ∈ a.consumed, i ∉ b.consumed)

/-- What the engine actually guarantees for an emission (the amended form
of claim C1): the key has a suffix of at least two labels and at least one
prefix label, the emitted rule is the generalized rule built from the key,
and every consumed rule is a DOMAIN rule of the remaining list whose label
list is exactly `prefix_count` (possibly empty, dot-free) labels followed by
the suffix labels — so it matches the emitted wildcard for
`prefix_count == 1` and matches the emitted regex up to the regex's
additional requirement that the prefix labels be non-empty. -/
def C1Sound (rules : List Rule) (e : Emission) : Prop :=
  2 ≤ e.key.1.length ∧ 1 ≤ e.key.2 ∧
  (∃ opts, e.rule = genRuleFor (joinDotS e.key.1) e.key.2 opts) ∧
  ∀ i ∈ e.consumed, ∃ r, (remainingOf rules).get? i = some r ∧ r.rtype = "DOMAIN" ∧
    (labelsOf r.value).take e.key.2 ++ e.key.1 = labelsOf r.value ∧
    ((labelsOf r.value).take e.key.2).length = e.key.2 ∧
    r.value = joinDotS ((labelsOf r.value).take e.key.2 ++ e.key.1) ∧
    (e.key.2 = 1 → wildcardShapeMatch (joinDotS e.key.1) r.value) ∧
    (1 < e.key.2 → regexShapeMatchLax e.key.2 (joinDotS e.key.1) r.value)

/-- A string that serialization and parsing treat verbatim: non-empty, free
of line breaks and commas, strip-invariant, and containing no inline-comment
trigger (whitespace run followed by `#`, `//` or `;`). -/
def benignField (s : String) : Prop :=
  s.data ≠ [] ∧ (∀ c ∈ s.data, isLineBreak c = false ∧ ¬ c = ',') ∧
  pyStripL s.data = s.data ∧ hasTrigger s.data = false

instance (s : String) : Decidable (benignField s) := by
  unfold benignField
  infer_instance

/-! ### Basic algebra of the string helpers -/

theorem splitOnChar_ne_nil (sep : Char) (l : List Char) : splitOnChar sep l ≠ [] := by
  induction l with
  | nil => simp [splitOnChar]
  | cons c rest ih =>
    simp only [splitOnChar]
    split
    · simp
    · cases h : splitOnChar sep rest with
      | nil => simp
      | cons h' t => simp

theorem intercalateL_cons (sep p : List Char) (parts : List (List Char))
    (h : parts ≠ []) :
    intercalateL sep (p :: parts) = p ++ sep ++ intercalateL sep parts := by
  cases parts with
  | nil => exact absurd rfl h
  | cons q rest => rfl

theorem intercalateL_splitOnChar (sep : Char) (l : List Char) :
    intercalateL [sep] (splitOnChar sep l) = l := by
  induction l with
  | nil => rfl
  | cons c rest ih =>
    simp only [splitOnChar]
    split
    · rename_i hc
      rw [intercalateL_cons _ _ _ (splitOnChar_ne_nil sep rest), ih]
      simp [hc]
    · rename_i hc
      cases h : splitOnChar sep rest with
      | nil => exact absurd h (splitOnChar_ne_nil sep rest)
      | cons h' t =>
        rw [h] at ih
        cases t with
        | nil =>
          simp only [intercalateL] at ih ⊢
          rw [ih]
        | cons t0 ts =>
          rw [intercalateL_cons _ _ _ (by simp)] at ih ⊢
          simp only [List.cons_append, List.append_assoc] at ih ⊢
          rw [ih]

theorem mem_splitOnChar_not_sep (sep : Char) (l : List Char) :
    ∀ p ∈ splitOnChar sep l, sep ∉ p := by
  induction l with
  | nil => simp [splitOnChar]
  | cons c rest ih =>
    simp only [splitOnChar]
    split
    · intro p hp
      rw [List.mem_cons] at hp
      rcases hp with hp | hp
      · simp [hp]
      · exact ih p hp
    · rename_i hc
      cases h : splitOnChar sep rest with
      | nil => exact absurd h (splitOnChar_ne_nil sep rest)
      | cons h' t =>
        rw [h] at ih
        intro p hp
        rw [List.mem_cons] at hp
        rcases hp with hp | hp
        · subst hp
          intro hmem
          rw [List.mem_cons] at hmem
          rcases hmem with hmem | hmem
          · exact hc hmem.symm
          · exact ih h' (by simp) hmem
        · exact ih p (by simp [hp])

theorem splitOnChar_single (sep : Char) (p : List Char) (hp : sep ∉ p) :
    splitOnChar sep p = [p] := by
  induction p with
  | nil => rfl
  | cons c t ih =>
    have hc : ¬ c = sep := fun h => hp (h ▸ List.mem_cons_self c t)
    have ht : sep ∉ t := fun h => hp (List.mem_cons_of_mem c h)
    simp only [splitOnChar, if_neg hc]
    rw [ih ht]

theorem splitOnChar_sep_cons (sep : Char) (a b : List Char) (ha : sep ∉ a) :
    splitOnChar sep (a ++ sep :: b) = a :: splitOnChar sep b := by
  induction a with
  | nil => simp [splitOnChar]
  | cons c t ih =>
    have hc : ¬ c = sep := fun h => ha (h ▸ List.mem_cons_self c t)
    have ht : sep ∉ t := fun h => ha (List.mem_cons_of_mem c h)
    simp only [List.cons_append, splitOnChar, if_neg hc, List.append_eq]
    rw [ih ht]

theorem splitOnChar_intercalateL (sep : Char) (parts : List (List Char))
    (hne : parts ≠ []) (hs : ∀ p ∈ parts, sep ∉ p) :
    splitOnChar sep (intercalateL [sep] parts) = parts := by
  induction parts with
  | nil => exact absurd rfl hne
  | cons p rest ih =>
    cases rest with
    | nil =>
      simp only [intercalateL]
      exact splitOnChar_single sep p (hs p (by simp))
    | cons q rest' =>
      rw [intercalateL_cons _ _ _ (by simp)]
      rw [List.append_assoc, List.singleton_append,
        splitOnChar_sep_cons sep p _ (hs p (by simp))]
      rw [ih (by simp) (fun x hx => hs x (by simp [hx]))]

theorem head_dropWhile_not {α : Type} (p : α → Bool) (l : List α) :
    ∀ c, (l.dropWhile p).head? = some c → p c = false := by
  induction l with
  | nil => simp
  | cons a t ih =>
    intro c hc
    rw [List.dropWhile_cons] at hc
    by_cases hp : p a = true
    · rw [if_pos hp] at hc
      exact ih c hc
    · rw [if_neg hp] at hc
      simp only [List.head?_cons, Option.some.injEq] at hc
      subst hc
      exact Bool.not_eq_true _ ▸ hp

theorem dropWhile_eq_self_of_head {α : Type} (p : α → Bool) (l : List α)
    (h : ∀ c, l.head? = some c → p c = false) : l.dropWhile p = l := by
  cases l with
  | nil => rfl
  | cons a t => simp [List.dropWhile_cons, h a rfl]

theorem pyStripL_eq_self (l : List Char)
    (h1 : ∀ c, l.head? = some c → isPySpace c = false)
    (h2 : ∀ c, l.getLast? = some c → isPySpace c = false) : pyStripL l = l := by
  unfold pyStripL
  rw [dropWhile_eq_self_of_head isPySpace l h1]
  rw [dropWhile_eq_self_of_head isPySpace l.reverse
    (fun c hc => h2 c ((List.head?_reverse l) ▸ hc))]
  exact List.reverse_reverse l

theorem pyStripL_head_not_space (l : List Char) :
    ∀ c, (pyStripL l).head? = some c → isPySpace c = false := by
  intro c hc
  unfold pyStripL at hc
  rcases @List.dropWhile_suffix _ ((l.dropWhile isPySpace).reverse) isPySpace with ⟨t, ht⟩
  have hA : l.dropWhile isPySpace
      = ((l.dropWhile isPySpace).reverse.dropWhile isPySpace).reverse ++ t.reverse := by
    rw [← List.reverse_append, ht, List.reverse_reverse]
  rcases hd : ((l.dropWhile isPySpace).reverse.dropWhile isPySpace).reverse with _ | ⟨x, u⟩
  · rw [hd] at hc
    simp at hc
  · rw [hd] at hc hA
    simp only [List.head?_cons, Option.some.injEq] at hc
    apply head_dropWhile_not isPySpace l
    rw [hA, List.cons_append, List.head?_cons, hc]

theorem pyStripL_last_not_space (l : List Char) :
    ∀ c, (pyStripL l).getLast? = some c → isPySpace c = false := by
  intro c hc
  unfold pyStripL at hc
  rw [List.getLast?_reverse] at hc
  exact head_dropWhile_not isPySpace (l.dropWhile isPySpace).reverse c hc

theorem pyStripL_idem (l : List Char) : pyStripL (pyStripL l) = pyStripL l :=
  pyStripL_eq_self (pyStripL l) (pyStripL_head_not_space l) (pyStripL_last_not_space l)


theorem isMarkerStart_append_comma (l r : List Char)
    (h : isMarkerStart l = false) : isMarkerStart (l ++ ',' :: r) = false := by
  cases l with
  | nil => rfl
  | cons c t =>
    simp only [isMarkerStart, List.cons_append] at h ⊢
    simp only [Bool.or_eq_false_iff, Bool.and_eq_false_iff] at h ⊢
    refine ⟨h.1, ?_⟩
    rcases h.2 with h3 | h3
    · exact Or.inl h3
    · right
      cases t with
      | nil => simp
      | cons d u => simpa using h3

theorem stripInlineAux_eq_self (l : List Char) (h : hasTrigger l = false) :
    stripInlineAux l = l := by
  induction l with
  | nil => rfl
  | cons c rest ih =>
    simp only [hasTrigger, Bool.or_eq_false_iff] at h
    simp only [stripInlineAux, h.1, Bool.false_eq_true, if_false]
    rw [ih h.2]

theorem hasTrigger_append_comma (a b : List Char)
    (ha : hasTrigger a = false) (hb : hasTrigger b = false) :
    hasTrigger (a ++ ',' :: b) = false := by
  induction a with
  | nil =>
    simp only [List.nil_append, hasTrigger, hb, Bool.or_false]
    have h1 : isPySpace ',' = false := by decide
    simp [h1]
  | cons c t ih =>
    simp only [hasTrigger, Bool.or_eq_false_iff] at ha
    simp only [List.cons_append, hasTrigger, Bool.or_eq_false_iff, List.append_eq]
    refine ⟨?_, ih ha.2⟩
    rcases Bool.and_eq_false_iff.mp ha.1 with h1 | h1
    · exact Bool.and_eq_false_iff.mpr (Or.inl h1)
    · refine Bool.and_eq_false_iff.mpr (Or.inr ?_)
      rw [List.dropWhile_append]
      rcases hd : t.dropWhile isPySpace with _ | ⟨x, u⟩
      · simp only [List.isEmpty_nil, if_true]
        have h2 : (',' :: b).dropWhile isPySpace = ',' :: b := by
          rw [List.dropWhile_cons, if_neg (by decide)]
        rw [h2]
        rfl
      · simp only [List.isEmpty_cons, if_false]
        rw [hd] at h1
        exact isMarkerStart_append_comma (x :: u) b h1

theorem hasTrigger_intercalate (parts : List (List Char))
    (h : ∀ p ∈ parts, hasTrigger p = false) :
    hasTrigger (intercalateL [','] parts) = false := by
  induction parts with
  | nil => rfl
  | cons p rest ih =>
    cases rest with
    | nil =>
      simp only [intercalateL]
      exact h p (by simp)
    | cons q rest' =>
      rw [intercalateL_cons _ _ _ (by simp), List.append_assoc, List.singleton_append]
      exact hasTrigger_append_comma p _ (h p (by simp))
        (ih (fun x hx => h x (by simp [hx])))

theorem splitLinesL_cons_nb (c : Char) (rest : List Char)
    (hc : isLineBreak c = false) :
    splitLinesL (c :: rest) =
      match splitLinesL rest with
      | [] => [[c]]
      | h :: t => (c :: h) :: t := by
  rw [splitLinesL.eq_def]
  simp [hc]

theorem splitLinesL_singleton (l : List Char) (hne : l ≠ [])
    (h : ∀ c ∈ l, isLineBreak c = false) : splitLinesL l = [l] := by
  induction l with
  | nil => exact absurd rfl hne
  | cons c rest ih =>
    have hc : isLineBreak c = false := h c (by simp)
    rw [splitLinesL_cons_nb c rest hc]
    cases rest with
    | nil => rfl
    | cons d u =>
      rw [ih (by simp) (fun x hx => h x (by simp [hx]))]

/-! ### String-level glue -/

theorem asString_data (l : List Char) : (List.asString l).data = l := rfl

theorem data_asString (s : String) : List.asString s.data = s := rfl

theorem joinDotS_labelsOf (v : String) : joinDotS (labelsOf v) = v := by
  unfold joinDotS labelsOf
  rw [List.map_map]
  have h : (String.data ∘ List.asString) = (id : List Char → List Char) := by
    funext l
    rfl
  rw [h, List.map_id, intercalateL_splitOnChar]
  exact data_asString v

theorem labelsOf_not_dot (v : String) : ∀ l ∈ labelsOf v, '.' ∉ l.data := by
  intro l hl
  unfold labelsOf at hl
  rcases List.mem_map.mp hl with ⟨p, hp, rfl⟩
  exact mem_splitOnChar_not_sep '.' v.data p hp

/-! ### `normalize_regex`: anchoring and idempotence -/

theorem normalizeRegexL_head (l : List Char) :
    (normalizeRegexL l).head? = some '^' := by
  unfold normalizeRegexL
  dsimp only
  by_cases hb : hasBoundaryL (pyStripL l) = true
  · rw [if_pos hb]
    unfold hasBoundaryL at hb
    simp only [Bool.and_eq_true, decide_eq_true_eq] at hb
    exact hb.1.1.1
  · rw [if_neg hb]
    by_cases hh : (pyStripL l).head? = some ('^')
    · rw [if_pos hh]
      have hne : pyStripL l ≠ [] := by
        intro h0
        rw [h0] at hh
        exact Option.noConfusion hh
      by_cases hlast : (pyStripL l).getLast? = some ('$')
      · rw [if_pos hlast]
        exact hh
      · rw [if_neg hlast]
        rw [List.head?_append, hh]
        rfl
    · rw [if_neg hh]
      by_cases hlast : ('^' :: pyStripL l).getLast? = some ('$')
      · rw [if_pos hlast]
        rfl
      · rw [if_neg hlast]
        rfl

theorem normalizeRegexL_last (l : List Char) :
    (normalizeRegexL l).getLast? = some '$' := by
  unfold normalizeRegexL
  dsimp only
  by_cases hb : hasBoundaryL (pyStripL l) = true
  · rw [if_pos hb]
    unfold hasBoundaryL at hb
    simp only [Bool.and_eq_true, decide_eq_true_eq, Bool.not_eq_true'] at hb
    rcases hb with ⟨⟨⟨hhead, htail⟩, hlast⟩, _⟩
    rcases hv : pyStripL l with _ | ⟨c, t⟩
    · rw [hv] at hhead
      exact Option.noConfusion hhead
    · rw [hv] at htail hlast
      cases t with
      | nil => simp at htail
      | cons d u =>
        rw [List.getLast?_cons_cons]
        exact hlast
  · rw [if_neg hb]
    by_cases hh : (pyStripL l).head? = some ('^')
    · rw [if_pos hh]
      by_cases hlast : (pyStripL l).getLast? = some ('$')
      · rw [if_pos hlast]
        exact hlast
      · rw [if_neg hlast]
        exact List.getLast?_concat _
    · rw [if_neg hh]
      by_cases hlast : ('^' :: pyStripL l).getLast? = some ('$')
      · rw [if_pos hlast]
        exact hlast
      · rw [if_neg hlast]
        exact List.getLast?_concat _

theorem normalizeRegexL_idem (l : List Char) :
    normalizeRegexL (normalizeRegexL l) = normalizeRegexL l := by
  have h1 := normalizeRegexL_head l
  have h2 := normalizeRegexL_last l
  have hstrip : pyStripL (normalizeRegexL l) = normalizeRegexL l := by
    apply pyStripL_eq_self
    · intro c hc
      rw [h1] at hc
      cases hc
      decide
    · intro c hc
      rw [h2] at hc
      cases hc
      decide
  conv_lhs => rw [normalizeRegexL.eq_def]
  dsimp only
  rw [hstrip]
  by_cases hb : hasBoundaryL (normalizeRegexL l) = true
  · rw [if_pos hb]
  · rw [if_neg hb, if_pos h1, if_pos h2]

/-! ### Claims -/

/-- C10: for every input string, `normalize_regex` returns a string that
starts with `^` and ends with `$`, and applying `normalize_regex` twice gives
the same result as applying it once. -/
theorem C10_normalize_regex_anchors_and_idem (v : String) :
    (normalize_regex v).data.head? = some '^' ∧
    (normalize_regex v).data.getLast? = some '$' ∧
    normalize_regex (normalize_regex v) = normalize_regex v := by
  refine ⟨normalizeRegexL_head v.data, normalizeRegexL_last v.data, ?_⟩
  show List.asString (normalizeRegexL (normalizeRegexL v.data)) = List.asString (normalizeRegexL v.data)
  rw [normalizeRegexL_idem]

/-- C2: on exactly the two DOMAIN rules `x.ads.example.com` and
`y.ads.example.com` with empty options, `simplify_rules` outputs the rule
`DOMAIN-WILDCARD,*.ads.example.com` (empty options) and drops both original
DOMAIN rules. -/
theorem C2_ads_example_collapses_to_wildcard :
    Rule.mk ("DOMAIN-WILDCARD") ("*.ads.example.com") [] ∈
      simplify_rules [Rule.mk ("DOMAIN") ("x.ads.example.com") [],
        Rule.mk ("DOMAIN") ("y.ads.example.com") []] ∧
    Rule.mk ("DOMAIN") ("x.ads.example.com") [] ∉
      simplify_rules [Rule.mk ("DOMAIN") ("x.ads.example.com") [],
        Rule.mk ("DOMAIN") ("y.ads.example.com") []] ∧
    Rule.mk ("DOMAIN") ("y.ads.example.com") [] ∉
      simplify_rules [Rule.mk ("DOMAIN") ("x.ads.example.com") [],
        Rule.mk ("DOMAIN") ("y.ads.example.com") []] := by
  decide

/-- C6: on exactly the two DOMAIN rules `p.q.tracker.net` and
`r.s.tracker.net` with empty options, `simplify_rules` outputs the rule
`DOMAIN-REGEX,^[^.]+\.[^.]+\.tracker\.net$` — two `[^.]+` label groups
followed by the regex-escaped suffix, anchored at both ends — and drops both
originals. -/
theorem C6_tracker_collapses_to_regex :
    Rule.mk ("DOMAIN-REGEX") ("^[^.]+\\.[^.]+\\.tracker\\.net$") [] ∈
      simplify_rules [Rule.mk ("DOMAIN") ("p.q.tracker.net") [],
        Rule.mk ("DOMAIN") ("r.s.tracker.net") []] ∧
    Rule.mk ("DOMAIN") ("p.q.tracker.net") [] ∉
      simplify_rules [Rule.mk ("DOMAIN") ("p.q.tracker.net") [],
        Rule.mk ("DOMAIN") ("r.s.tracker.net") []] ∧
    Rule.mk ("DOMAIN") ("r.s.tracker.net") [] ∉
      simplify_rules [Rule.mk ("DOMAIN") ("p.q.tracker.net") [],
        Rule.mk ("DOMAIN") ("r.s.tracker.net") []] := by
  decide

/-- C4 counterexample: the claim says `DOMAIN,a1.track.example.com` is
promoted by the dynamic-label promoter to `DOMAIN-WILDCARD,*.track.example.com`;
in fact `promote_dynamic_labels` returns nothing for it, because the
digit-bearing label `a1` has length 2 < 4. -/
theorem C4_counterexample_promotion_does_not_fire :
    promote_dynamic_labels (Rule.mk ("DOMAIN") ("a1.track.example.com") []) = none ∧
    (none : Option Rule) ≠
      some (Rule.mk ("DOMAIN-WILDCARD") ("*.track.example.com") []) := by
  decide

/-- C4 amended: neither `DOMAIN,a1.track.example.com` nor
`DOMAIN,b2.track.example.com` is promoted (their digit-bearing labels are
shorter than 4); instead the suffix engine generalizes the pair, and the
final output of `simplify_rules` contains exactly one occurrence of
`DOMAIN-WILDCARD,*.track.example.com`. -/
theorem C4_amended_single_wildcard_via_suffix_engine :
    promote_dynamic_labels (Rule.mk ("DOMAIN") ("a1.track.example.com") []) = none ∧
    promote_dynamic_labels (Rule.mk ("DOMAIN") ("b2.track.example.com") []) = none ∧
    (simplify_rules [Rule.mk ("DOMAIN") ("a1.track.example.com") [],
        Rule.mk ("DOMAIN") ("b2.track.example.com") []]).count
      (Rule.mk ("DOMAIN-WILDCARD") ("*.track.example.com") []) = 1 := by
  decide

/-- C3 counterexample: the Quantumult-style adapter does not round-trip a
recognized-type rule with a non-empty options sequence: parsing the
serialized line of `Rule("IP-CIDR", "1.2.3.4/32", ("no-resolve",))` drops
the first option field (taken as the policy-group name), so the parsed rule
differs from the original. -/
theorem C3_counterexample_quanx_drops_option :
    parse_quanx (Rule.mk ("IP-CIDR") ("1.2.3.4/32") ["no-resolve"]).to_line
        = [Rule.mk ("IP-CIDR") ("1.2.3.4/32") []] ∧
    parse_quanx (Rule.mk ("IP-CIDR") ("1.2.3.4/32") ["no-resolve"]).to_line
        ≠ [Rule.mk ("IP-CIDR") ("1.2.3.4/32") ["no-resolve"]] := by
  decide

/-! ### The promoter contract (C5) -/

theorem mem_enumL {α : Type} (l : List α) :
    ∀ (n i : Nat) (a : α),
      (i, a) ∈ enumL n l ↔ ∃ j, i = n + j ∧ l.get? j = some a := by
  induction l with
  | nil => simp [enumL]
  | cons x xs ih =>
    intro n i a
    simp only [enumL, List.mem_cons, Prod.mk.injEq]
    constructor
    · rintro (⟨rfl, rfl⟩ | h)
      · exact ⟨0, by omega, by simp⟩
      · rcases (ih (n + 1) i a).mp h with ⟨j, rfl, hj⟩
        exact ⟨j + 1, by omega, by simpa using hj⟩
    · rintro ⟨j, rfl, hj⟩
      cases j with
      | zero =>
        left
        simp only [List.get?_cons_zero, Option.some.injEq] at hj
        exact ⟨by omega, hj.symm⟩
      | succ j' =>
        right
        refine (ih (n + 1) _ a).mpr ⟨j', by omega, ?_⟩
        simpa using hj

theorem mem_dynPositions (L : List String) (i : Nat) :
    (i ∈ (enumL 0 (L.take (L.length - 2))).filterMap
        (fun p => if isDynamicLabel p.2 then some p.1 else none)) ↔
    ∃ l, L.get? i = some l ∧ i < L.length - 2 ∧ isDynamicLabel l = true := by
  simp only [List.mem_filterMap]
  constructor
  · rintro ⟨⟨j, l⟩, hmem, hif⟩
    by_cases hd : isDynamicLabel l = true
    · rw [if_pos hd] at hif
      cases hif
      rcases (mem_enumL _ 0 j l).mp hmem with ⟨j', hj, hget⟩
      have hj0 : j = j' := by omega
      subst hj0
      rw [List.get?_eq_getElem?, List.getElem?_take] at hget
      by_cases hlt : j < L.length - 2
      · rw [if_pos hlt] at hget
        exact ⟨l, by rw [List.get?_eq_getElem?]; exact hget, hlt, hd⟩
      · rw [if_neg hlt] at hget
        exact Option.noConfusion hget
    · rw [if_neg hd] at hif
      exact Option.noConfusion hif
  · rintro ⟨l, hget, hlt, hd⟩
    refine ⟨(i, l), ?_, by rw [if_pos hd]⟩
    refine (mem_enumL _ 0 i l).mpr ⟨i, by omega, ?_⟩
    rw [List.get?_eq_getElem?, List.getElem?_take, if_pos hlt]
    rw [List.get?_eq_getElem?] at hget
    exact hget

/-- C5: the dynamic-label promoter returns a rule exactly when the input is a
DOMAIN rule with at least 3 labels of which at least one label other than the
last two contains a digit and has length ≥ 4; the returned rule is a
DOMAIN-WILDCARD carrying the input's options whose value is the input value
with every such flagged label replaced by `*` and all other labels
unchanged. -/
theorem C5_promote_contract (r : Rule) :
    ((promote_dynamic_labels r).isSome ↔
      (r.rtype = "DOMAIN" ∧ 3 ≤ (labelsOf r.value).length ∧
        ∃ i l, (labelsOf r.value).get? i = some l ∧
          i < (labelsOf r.value).length - 2 ∧ isDynamicLabel l = true)) ∧
    (∀ r', promote_dynamic_labels r = some r' →
      r'.rtype = "DOMAIN-WILDCARD" ∧ r'.options = r.options ∧
      r'.value = joinDotS ((enumL 0 (labelsOf r.value)).map
        (fun p => if p.1 < (labelsOf r.value).length - 2 ∧ isDynamicLabel p.2 = true
                  then ("*" : String) else p.2))) := by
  unfold promote_dynamic_labels
  by_cases ht : r.rtype = "DOMAIN"
  · rw [if_pos ht]
    dsimp only
    by_cases hlen : (labelsOf r.value).length < 3
    · rw [if_pos hlen]
      constructor
      · simp only [Option.isSome_none, Bool.false_eq_true, false_iff]
        rintro ⟨-, h3, -⟩
        omega
      · intro r' hr'
        exact Option.noConfusion hr'
    · rw [if_neg hlen]
      by_cases hdyn : ((enumL 0 ((labelsOf r.value).take ((labelsOf r.value).length - 2))).filterMap
          (fun p => if isDynamicLabel p.2 then some p.1 else none)).isEmpty = true
      · rw [if_pos hdyn]
        rw [List.isEmpty_iff] at hdyn
        constructor
        · simp only [Option.isSome_none, Bool.false_eq_true, false_iff]
          rintro ⟨-, -, i, l, hget, hlt, hd⟩
          have : i ∈ (enumL 0 ((labelsOf r.value).take ((labelsOf r.value).length - 2))).filterMap
              (fun p => if isDynamicLabel p.2 then some p.1 else none) :=
            (mem_dynPositions _ i).mpr ⟨l, hget, hlt, hd⟩
          rw [hdyn] at this
          exact absurd this (List.not_mem_nil i)
        · intro r' hr'
          exact Option.noConfusion hr'
      · rw [if_neg hdyn]
        constructor
        · simp only [Option.isSome_some, true_iff]
          refine ⟨ht, by omega, ?_⟩
          rcases List.isEmpty_eq_false_iff_exists_mem.mp (Bool.not_eq_true _ ▸ hdyn) with ⟨i, hi⟩
          rcases (mem_dynPositions _ i).mp hi with ⟨l, hget, hlt, hd⟩
          exact ⟨i, l, hget, hlt, hd⟩
        · intro r' hr'
          rw [Option.some.injEq] at hr'
          subst hr'
          refine ⟨rfl, rfl, ?_⟩
          show joinDotS _ = joinDotS _
          congr 1
          apply List.map_congr_left
          rintro ⟨j, l⟩ hp
          rcases (mem_enumL _ 0 j l).mp hp with ⟨j', hj, hget⟩
          have hj0 : j = j' := by omega
          subst hj0
          by_cases hmem : j ∈ (enumL 0 ((labelsOf r.value).take ((labelsOf r.value).length - 2))).filterMap
              (fun p => if isDynamicLabel p.2 then some p.1 else none)
          · rw [if_pos hmem]
            rcases (mem_dynPositions _ j).mp hmem with ⟨l', hget', hlt, hd⟩
            rw [hget] at hget'
            cases hget'
            rw [if_pos ⟨hlt, hd⟩]
          · rw [if_neg hmem]
            by_cases hcond : j < (labelsOf r.value).length - 2 ∧ isDynamicLabel l = true
            · exact absurd ((mem_dynPositions _ j).mpr ⟨l, hget, hcond.1, hcond.2⟩) hmem
            · rw [if_neg hcond]
  · rw [if_neg ht]
    constructor
    · simp only [Option.isSome_none, Bool.false_eq_true, false_iff]
      rintro ⟨h, -⟩
      exact ht h
    · intro r' hr'
      exact Option.noConfusion hr'

/-- C5 witness: the contract applied to the concrete rule
`DOMAIN,user123.app.example.com` with options `("opt",)`, whose first label
is dynamic. -/
theorem C5_witness :
    promote_dynamic_labels (Rule.mk ("DOMAIN") ("user123.app.example.com") ["opt"])
        = some (Rule.mk ("DOMAIN-WILDCARD") ("*.app.example.com") ["opt"]) ∧
    ((Rule.mk ("DOMAIN-WILDCARD") ("*.app.example.com") ["opt"]).rtype = "DOMAIN-WILDCARD" ∧
      (Rule.mk ("DOMAIN-WILDCARD") ("*.app.example.com") ["opt"]).options
        = (Rule.mk ("DOMAIN") ("user123.app.example.com") ["opt"]).options ∧
      (Rule.mk ("DOMAIN-WILDCARD") ("*.app.example.com") ["opt"]).value
        = joinDotS ((enumL 0 (labelsOf (Rule.mk ("DOMAIN") ("user123.app.example.com") ["opt"]).value)).map
            (fun p => if p.1 < (labelsOf (Rule.mk ("DOMAIN") ("user123.app.example.com") ["opt"]).value).length - 2
                  ∧ isDynamicLabel p.2 = true then ("*" : String) else p.2))) := by
  refine ⟨by decide, (C5_promote_contract _).2 _ (by decide)⟩

/-! ### Quantumult-style option handling (C8) -/

theorem filterMap_eq_map_on {α β : Type} (l : List α) (f : α → Option β) (g : α → β)
    (h : ∀ a ∈ l, f a = some (g a)) : l.filterMap f = l.map g := by
  induction l with
  | nil => rfl
  | cons a t ih =>
    rw [List.filterMap_cons, h a (by simp), List.map_cons,
      ih (fun x hx => h x (by simp [hx]))]

/-- C8 amended: for every line the Quantumult-style adapter accepts, the
resulting options are obtained from the comma-separated fields after the
value by first discarding the empty fields, then dropping exactly one
remaining field (the policy-group name) and keeping all further fields. -/
theorem C8_amended_quanx_options (l : List Char) (r : Rule)
    (h : parseQuanxLineL l = some r) :
    r.options =
      ((((((splitOnChar ',' (pyStripL (stripInlineAux (pyStripL l)))).map pyStripL).drop 2).filter
          (fun p => !p.isEmpty)).drop 1).map List.asString) := by
  unfold parseQuanxLineL at h
  dsimp only at h
  split at h
  · exact Option.noConfusion h
  · split at h
    · exact Option.noConfusion h
    · split at h
      · exact Option.noConfusion h
      · split at h
        · exact Option.noConfusion h
        · rename_i kind hkind
          split at h
          · exact Option.noConfusion h
          · rw [Option.some.injEq] at h
            subst h
            dsimp only
            split
            · rename_i hempty
              rw [List.isEmpty_iff] at hempty
              rw [hempty]
              rfl
            · apply filterMap_eq_map_on
              intro it hit
              have hmem : it ∈ ((((splitOnChar ',' (pyStripL (stripInlineAux (pyStripL l)))).map pyStripL).drop 2).filter (fun p => !p.isEmpty)) :=
                List.mem_of_mem_drop hit
              have hne : it.isEmpty = false := by
                have := (List.mem_filter.mp hmem).2
                simpa using this
              have hstrip : pyStripL it = it := by
                have hmem2 : it ∈ ((splitOnChar ',' (pyStripL (stripInlineAux (pyStripL l)))).map pyStripL) :=
                  List.mem_of_mem_drop (List.mem_filter.mp hmem).1
                rcases List.mem_map.mp hmem2 with ⟨x, -, rfl⟩
                exact pyStripL_idem x
              rw [hstrip, hne]
              rfl

/-- C8 counterexample: on the line `HOST,example.com,,policy,opt1` the fields
after the value are `["", "policy", "opt1"]`, so the claim as stated predicts
options `["policy", "opt1"]`; the adapter first discards the empty field and
then drops `policy` as the policy-group name, producing `["opt1"]`. -/
theorem C8_counterexample_empty_field : ¬ C8Statement := by
  intro h
  have h1 := h ("HOST,example.com,,policy,opt1".data)
    (Rule.mk ("DOMAIN") ("example.com") ["opt1"]) (by decide)
  revert h1
  decide

/-- C8 witness: the amended options rule applied to the concrete accepted
line `HOST,example.com,x,y,z`. -/
theorem C8_amended_witness :
    (Rule.mk ("DOMAIN") ("example.com") ["y", "z"]).options =
      ((((((splitOnChar ',' (pyStripL (stripInlineAux (pyStripL ("HOST,example.com,x,y,z".data))))).map pyStripL).drop 2).filter
          (fun p => !p.isEmpty)).drop 1).map List.asString) :=
  C8_amended_quanx_options ("HOST,example.com,x,y,z".data) _ (by decide)

/-! ### The suffix-map and engine invariants (C1, C7) -/

theorem keysForRule_spec (r : Rule) (k : List String × Nat) (hk : k ∈ keysForRule r) :
    (labelsOf r.value).take k.2 ++ k.1 = labelsOf r.value ∧
    ((labelsOf r.value).take k.2).length = k.2 ∧
    2 ≤ k.1.length ∧ 1 ≤ k.2 := by
  unfold keysForRule at hk
  dsimp only at hk
  split at hk
  · exact absurd hk (List.not_mem_nil k)
  · rename_i hlen
    rcases List.mem_filterMap.mp hk with ⟨sl, hsl, hf⟩
    rw [List.mem_range'_1] at hsl
    have hn3 : 3 ≤ (labelsOf r.value).length := by omega
    have hslmax : sl ≤ min ((labelsOf r.value).length - 1) 5 := by omega
    have hsln : sl ≤ (labelsOf r.value).length - 1 := le_trans hslmax (min_le_left _ _)
    split at hf
    · exact Option.noConfusion hf
    · rename_i hpc
      rw [Option.some.injEq] at hf
      subst hf
      refine ⟨?_, ?_, ?_, ?_⟩
      · exact List.take_append_drop _ _
      · rw [List.length_take]
        omega
      · rw [List.length_drop]
        omega
      · omega

theorem addToMap_candOK (remaining : List Rule)
    (m : List ((List String × Nat) × List Nat)) (k : List String × Nat) (i : Nat)
    (hm : ∀ e ∈ m, CandOK remaining e)
    (hi : ∃ r, remaining.get? i = some r ∧ r.rtype = "DOMAIN" ∧ k ∈ keysForRule r) :
    ∀ e ∈ addToMap m k i, CandOK remaining e := by
  induction m with
  | nil =>
    intro e he
    simp only [addToMap, List.mem_singleton] at he
    subst he
    refine ⟨by simp, ?_⟩
    intro j hj
    rw [List.mem_singleton] at hj
    subst hj
    exact hi
  | cons e0 rest ih =>
    intro e he
    simp only [addToMap] at he
    split at he
    · rename_i hkey
      rw [List.mem_cons] at he
      rcases he with he | he
      · subst he
        have h0 : CandOK remaining e0 := hm e0 (by simp)
        constructor
        · dsimp only
          split
          · exact h0.1
          · rename_i hnotin
            rw [List.nodup_append]
            exact ⟨h0.1, List.nodup_singleton i, by simpa using hnotin⟩
        · intro j hj
          dsimp only at hj
          split at hj
          · exact hkey ▸ h0.2 j hj
          · rw [List.mem_append, List.mem_singleton] at hj
            rcases hj with hj | hj
            · exact hkey ▸ h0.2 j hj
            · subst hj
              exact hkey ▸ hi
      · exact hm e (by simp [he])
    · rw [List.mem_cons] at he
      rcases he with he | he
      · exact hm e (by simp [he])
      · exact ih (fun x hx => hm x (by simp [hx])) e he

theorem foldKeys_candOK (remaining : List Rule) (r0 : Rule) (idx : Nat)
    (hr : remaining.get? idx = some r0) :
    ∀ (ks : List (List String × Nat)) (m : List ((List String × Nat) × List Nat)),
      (∀ e ∈ m, CandOK remaining e) → (∀ k ∈ ks, k ∈ keysForRule r0) →
      r0.rtype = "DOMAIN" →
      ∀ e ∈ ks.foldl (fun m' k => addToMap m' k idx) m, CandOK remaining e := by
  intro ks
  induction ks with
  | nil => intro m hm _ _ e he; exact hm e he
  | cons k0 ks' ih =>
    intro m hm hks hdom e he
    rw [List.foldl_cons] at he
    exact ih (addToMap m k0 idx)
      (addToMap_candOK remaining m k0 idx hm ⟨r0, hr, hdom, hks k0 (by simp)⟩)
      (fun k hk => hks k (by simp [hk])) hdom e he

theorem buildMapAux_candOK (remaining : List Rule) :
    ∀ (rest : List Rule) (idx : Nat) (m : List ((List String × Nat) × List Nat)),
      (∀ e ∈ m, CandOK remaining e) →
      (∀ j r, rest.get? j = some r → remaining.get? (idx + j) = some r) →
      ∀ e ∈ buildMapAux idx rest m, CandOK remaining e := by
  intro rest
  induction rest with
  | nil =>
    intro idx m hm _ e he
    exact hm e he
  | cons r0 rest' ih =>
    intro idx m hm hrel e he
    unfold buildMapAux at he
    have hr0 : remaining.get? idx = some r0 := by
      have := hrel 0 r0 (by simp)
      simpa using this
    refine ih (idx + 1) _ ?_ ?_ e he
    · split
      · rename_i hdom
        exact foldKeys_candOK remaining r0 idx hr0 (keysForRule r0) m hm (fun k hk => hk) hdom
      · exact hm
    · intro j r hj
      have := hrel (j + 1) r (by simpa using hj)
      have harith : idx + (j + 1) = idx + 1 + j := by omega
      rw [harith] at this
      exact this

theorem mem_insertLe {α : Type} (le : α → α → Bool) (a x : α) (l : List α) :
    x ∈ insertLe le a l ↔ x = a ∨ x ∈ l := by
  induction l with
  | nil => simp [insertLe]
  | cons b bs ih =>
    simp only [insertLe]
    split
    · simp
    · rw [List.mem_cons, List.mem_cons, ih]
      tauto

theorem mem_sortLe {α : Type} (le : α → α → Bool) (x : α) (l : List α) :
    x ∈ sortLe le l ↔ x ∈ l := by
  induction l with
  | nil => simp [sortLe]
  | cons a rest ih =>
    simp only [sortLe]
    rw [mem_insertLe, ih, List.mem_cons]

theorem stepCandidate_inv (remaining : List Rule) (st : EngState)
    (cand : (List String × Nat) × List Nat)
    (hc : CandOK remaining cand) (h : EngInv remaining st) :
    EngInv remaining (stepCandidate remaining st cand) := by
  unfold stepCandidate
  dsimp only
  split
  · exact h
  · rename_i hlen2
    split
    · exact h
    · split
      · exact h
      · rename_i hsuffok
        split
        · exact h
        · rename_i hnew
          rw [not_or] at hsuffok
          refine ⟨?_, ?_, ?_⟩
          · intro e he
            rw [List.mem_append, List.mem_singleton] at he
            rcases he with he | he
            · exact h.1 e he
            · subst he
              refine ⟨by dsimp only; omega, hc.1.filter _, ?_, ?_, ?_⟩
              · dsimp only
                have := hsuffok.1
                omega
              · intro i hi
                dsimp only at hi ⊢
                have hi2 := (List.mem_filter.mp hi).1
                have := hc.2 i hi2
                simpa using this
              · exact ⟨_, rfl⟩
          · intro e he i hi
            rw [List.mem_append, List.mem_singleton] at he
            rw [List.mem_append]
            rcases he with he | he
            · exact Or.inl (h.2.1 e he i hi)
            · subst he
              dsimp only at hi
              exact Or.inr hi
          · rw [List.pairwise_append]
            refine ⟨h.2.2, List.pairwise_singleton _ _, ?_⟩
            intro a ha b hb i hia
            rw [List.mem_singleton] at hb
            subst hb
            dsimp only
            intro hib
            have hrem : i ∈ st.removed := h.2.1 a ha i hia
            have := (List.mem_filter.mp hib).2
            simp only [decide_eq_true_eq] at this
            exact this hrem

theorem engInv_foldl (remaining : List Rule) :
    ∀ (cands : List ((List String × Nat) × List Nat)) (st : EngState),
      (∀ c ∈ cands, CandOK remaining c) → EngInv remaining st →
      EngInv remaining (cands.foldl (stepCandidate remaining) st) := by
  intro cands
  induction cands with
  | nil => intro st _ h; exact h
  | cons c0 rest ih =>
    intro st hc h
    rw [List.foldl_cons]
    exact ih _ (fun c hcm => hc c (by simp [hcm]))
      (stepCandidate_inv remaining st c0 (hc c0 (by simp)) h)

theorem engInv_runEngine (remaining : List Rule) :
    EngInv remaining (runEngine remaining) := by
  unfold runEngine
  apply engInv_foldl
  · intro c hcm
    have hc' : c ∈ buildSuffixMap remaining := (mem_sortLe _ _ _).mp hcm
    exact buildMapAux_candOK remaining remaining 0 [] (by simp)
      (fun j r hj => by simpa using hj) c hc'
  · exact ⟨by simp, by simp, List.Pairwise.nil⟩

/-- C7: for every input rule sequence, every generalized rule the suffix
engine emits is backed at the moment of emission by at least two distinct
active supporting rules, and no supporting index is consumed by more than one
emission (support sets of distinct emissions are disjoint). -/
theorem C7_minimum_support (rules : List Rule) :
    (∀ e ∈ (runEngine (remainingOf rules)).emissions,
      2 ≤ e.consumed.length ∧ e.consumed.Nodup) ∧
    (runEngine (remainingOf rules)).emissions.Pairwise
      (fun a b => ∀ i ∈ a.consumed, i ∉ b.consumed) := by
  have h := engInv_runEngine (remainingOf rules)
  exact ⟨fun e he => ⟨(h.1 e he).1, (h.1 e he).2.1⟩, h.2.2⟩

/-- C7 witness: the minimum-support bound instantiated at the concrete input
of Example 2, whose single emission consumes indices 0 and 1. -/
theorem C7_witness :
    2 ≤ ([0, 1] : List Nat).length ∧ ([0, 1] : List Nat).Nodup :=
  (C7_minimum_support [Rule.mk ("DOMAIN") ("x.ads.example.com") [],
      Rule.mk ("DOMAIN") ("y.ads.example.com") []]).1
    ⟨(["ads", "example", "com"], 1),
      Rule.mk ("DOMAIN-WILDCARD") ("*.ads.example.com") [], [0, 1]⟩
    (by decide)

theorem intercalateL_dot_foldr (ps ss : List (List Char)) (hss : ss ≠ []) :
    intercalateL ['.'] (ps ++ ss)
      = ps.foldr (fun p acc => p ++ '.' :: acc) (intercalateL ['.'] ss) := by
  induction ps with
  | nil => rfl
  | cons p ps' ih =>
    have hne : ps' ++ ss ≠ [] := by
      intro h0
      rcases List.append_eq_nil.mp h0 with ⟨-, h2⟩
      exact hss h2
    rw [List.cons_append, intercalateL_cons _ _ _ hne, ih, List.foldr_cons]
    simp [List.append_assoc]

/-- C1 amended: every emission of the suffix engine satisfies `C1Sound`:
each consumed rule's label list is exactly `prefix_count` dot-free (possibly
empty) labels followed by the suffix, so it fully matches the emitted
wildcard when `prefix_count == 1` and matches the emitted regex up to the
regex's additional non-emptiness of `[^.]+` (which can fail — see the
counterexample). -/
theorem C1_amended_generalization_soundness (rules : List Rule) (e : Emission)
    (he : e ∈ (runEngine (remainingOf rules)).emissions) : C1Sound rules e := by
  have h := engInv_runEngine (remainingOf rules)
  obtain ⟨hlen2, hnodup, hsuf2, hsupp, hrule⟩ := h.1 e he
  have hcons_ne : e.consumed ≠ [] := by
    intro h0
    rw [h0] at hlen2
    simp at hlen2
  obtain ⟨i0, hi0⟩ := List.exists_mem_of_ne_nil _ hcons_ne
  obtain ⟨r0, -, -, hk0⟩ := hsupp i0 hi0
  have hpc1 : 1 ≤ e.key.2 := (keysForRule_spec r0 e.key hk0).2.2.2
  have hssne : e.key.1.map String.data ≠ [] := by
    intro h0
    have := congrArg List.length h0
    simp only [List.length_map, List.length_nil] at this
    omega
  refine ⟨hsuf2, hpc1, hrule, ?_⟩
  intro i hi
  obtain ⟨r, hget, hdom, hk⟩ := hsupp i hi
  obtain ⟨hdecomp, htklen, hsl2, -⟩ := keysForRule_spec r e.key hk
  have hval : r.value = joinDotS ((labelsOf r.value).take e.key.2 ++ e.key.1) := by
    rw [hdecomp, joinDotS_labelsOf]
  refine ⟨r, hget, hdom, hdecomp, htklen, hval, ?_, ?_⟩
  · intro hpc
    obtain ⟨lab, hlab⟩ := List.length_eq_one.mp (htklen.trans hpc)
    refine ⟨lab.data, ?_, ?_⟩
    · have hmem : lab ∈ labelsOf r.value := by
        rw [← hdecomp]
        exact List.mem_append_left _ (by rw [hlab]; exact List.mem_singleton_self lab)
      exact labelsOf_not_dot _ lab hmem
    · have hdata : r.value.data
          = intercalateL ['.'] (((labelsOf r.value).take e.key.2 ++ e.key.1).map String.data) :=
        congrArg String.data hval
      rw [hlab] at hdata
      simp only [List.map_append, List.map_cons, List.map_nil,
        List.singleton_append] at hdata
      rw [intercalateL_cons _ _ _ hssne] at hdata
      rw [hdata]
      simp only [List.append_assoc, List.singleton_append]
      rfl
  · intro hpc
    refine ⟨((labelsOf r.value).take e.key.2).map String.data, ?_, ?_, ?_⟩
    · rw [List.length_map]
      exact htklen
    · intro p hp
      rcases List.mem_map.mp hp with ⟨l, hl, rfl⟩
      exact labelsOf_not_dot _ l (List.take_subset _ _ hl)
    · have hdata : r.value.data
          = intercalateL ['.'] (((labelsOf r.value).take e.key.2 ++ e.key.1).map String.data) :=
        congrArg String.data hval
      rw [List.map_append] at hdata
      rw [intercalateL_dot_foldr _ _ hssne] at hdata
      exact hdata

/-- C1 counterexample: on the input rules `DOMAIN,p..tracker.net` and
`DOMAIN,r.s.tracker.net`, the suffix engine emits
`DOMAIN-REGEX,^[^.]+\.[^.]+\.tracker\.net$` from key `((tracker, net), 2)`
consuming both rules, but the consumed value `p..tracker.net` has an empty
second label and therefore does not match the emitted regex, whose `[^.]+`
groups require non-empty labels — so the claim as stated fails. -/
theorem C1_counterexample_empty_label :
    ¬ C1Statement [Rule.mk ("DOMAIN") ("p..tracker.net") [],
        Rule.mk ("DOMAIN") ("r.s.tracker.net") []] := by
  intro h
  have h1 := h ⟨(["tracker", "net"], 2),
      Rule.mk ("DOMAIN-REGEX") ("^[^.]+\\.[^.]+\\.tracker\\.net$") [], [0, 1]⟩
    (by decide) 0 (by decide) (Rule.mk ("DOMAIN") ("p..tracker.net") []) (by decide)
  have h2 := h1.2 (by decide)
  obtain ⟨parts, hplen, hpok, heq⟩ := h2
  rcases List.length_eq_two.mp hplen with ⟨p1, p2, rfl⟩
  have h1ok := hpok p1 (by simp)
  have h2ok := hpok p2 (by simp)
  simp only [List.foldr_cons, List.foldr_nil] at heq
  cases p1 with
  | nil => exact h1ok.1 rfl
  | cons c1 t1 =>
    rw [List.cons_append] at heq
    injection heq with hc1 heq
    cases t1 with
    | nil =>
      rw [List.nil_append] at heq
      injection heq with hdot heq
      cases p2 with
      | nil => exact h2ok.1 rfl
      | cons c2 t2 =>
        rw [List.cons_append] at heq
        injection heq with hc2 heq
        refine h2ok.2 ?_
        rw [← hc2]
        exact List.mem_cons_self _ _
    | cons d u =>
      injection heq with hd heq
      refine h1ok.2 ?_
      refine List.mem_cons_of_mem c1 ?_
      rw [← hd]
      exact List.mem_cons_self _ _

/-- C1 witness: the amended soundness statement instantiated at the concrete
input of Example 2 and its single emission, which consumes indices 0 and 1. -/
theorem C1_witness :
    C1Sound [Rule.mk ("DOMAIN") ("x.ads.example.com") [],
        Rule.mk ("DOMAIN") ("y.ads.example.com") []]
      ⟨(["ads", "example", "com"], 1),
        Rule.mk ("DOMAIN-WILDCARD") ("*.ads.example.com") [], [0, 1]⟩ :=
  C1_amended_generalization_soundness _ _ (by decide)

/-! ### Fetch-failure atomicity (C9) -/

theorem runFetchLoop_fail (fetch : String → Except String String) :
    ∀ (srcs : List Source) (collected : List Rule) (att : List String),
      (∃ s ∈ srcs, ∃ msg, fetch s.url = Except.error msg) →
      ∃ s msg, s ∈ srcs ∧ fetch s.url = Except.error msg ∧
        (runFetchLoop fetch srcs collected att).2
          = Except.error ("Failed to download " ++ s.url ++ ": " ++ msg) := by
  intro srcs
  induction srcs with
  | nil =>
    rintro _ _ ⟨s, hs, -⟩
    exact absurd hs (List.not_mem_nil s)
  | cons s0 rest ih =>
    intro collected att hex
    cases hfe : fetch s0.url with
    | error msg =>
      refine ⟨s0, msg, by simp, hfe, ?_⟩
      unfold runFetchLoop fetch_text
      rw [hfe]
    | ok txt =>
      rcases hex with ⟨s, hs, msg, hmsg⟩
      have hs' : s ∈ rest := by
        rcases List.mem_cons.mp hs with rfl | hrest
        · rw [hfe] at hmsg
          exact Except.noConfusion hmsg
        · exact hrest
      obtain ⟨s', msg', hmem, hferr, heq⟩ :=
        ih (dedupAppend collected
            (if s0.kind = "quanx" then parse_quanx txt else parse_surge txt))
          (att ++ [s0.url]) ⟨s, hs', msg, hmsg⟩
      refine ⟨s', msg', by simp [hmem], hferr, ?_⟩
      unfold runFetchLoop fetch_text
      rw [hfe]
      exact heq

theorem runFetchLoop_attempts (fetch : String → Except String String) :
    ∀ (srcs : List Source) (collected : List Rule) (att : List String),
      ∃ k, (runFetchLoop fetch srcs collected att).1
        = att ++ (srcs.map (fun s => s.url)).take k := by
  intro srcs
  induction srcs with
  | nil =>
    intro collected att
    exact ⟨0, by simp [runFetchLoop]⟩
  | cons s0 rest ih =>
    intro collected att
    cases hfe : fetch s0.url with
    | error msg =>
      refine ⟨1, ?_⟩
      unfold runFetchLoop fetch_text
      rw [hfe]
      simp
    | ok txt =>
      obtain ⟨k, hk⟩ := ih (dedupAppend collected
          (if s0.kind = "quanx" then parse_quanx txt else parse_surge txt))
        (att ++ [s0.url])
      refine ⟨k + 1, ?_⟩
      unfold runFetchLoop fetch_text
      rw [hfe]
      rw [hk]
      simp [List.take_succ_cons]

/-- C9: with network I/O modelled as an oracle, if any source fetch fails
then the run is unsuccessful, writes no output file, and reports an error
message naming the failing URL; moreover no URL is ever fetched twice
(fetch failures are never retried). -/
theorem C9_fetch_failure_atomicity (fetch : String → Except String String) :
    ((∃ s ∈ SOURCES, ∃ msg, fetch s.url = Except.error msg) →
      (mainModel fetch).success = false ∧ (mainModel fetch).written = none ∧
      ∃ s msg, s ∈ SOURCES ∧ fetch s.url = Except.error msg ∧
        (mainModel fetch).errMsg
          = some ("Failed to download " ++ s.url ++ ": " ++ msg)) ∧
    (mainModel fetch).attempted.Nodup := by
  constructor
  · intro hex
    obtain ⟨s, msg, hmem, hferr, heq⟩ := runFetchLoop_fail fetch SOURCES [] [] hex
    unfold mainModel
    rcases hrun : runFetchLoop fetch SOURCES [] [] with ⟨att, res⟩
    rw [hrun] at heq
    cases res with
    | error m =>
      simp only at heq
      rw [Except.error.injEq] at heq
      subst heq
      exact ⟨rfl, rfl, s, msg, hmem, hferr, rfl⟩
    | ok collected =>
      simp only at heq
      exact Except.noConfusion heq
  · obtain ⟨k, hk⟩ := runFetchLoop_attempts fetch SOURCES [] []
    unfold mainModel
    rcases hrun : runFetchLoop fetch SOURCES [] [] with ⟨att, res⟩
    rw [hrun] at hk
    simp only [List.nil_append] at hk
    have hnd : att.Nodup := by
      rw [hk]
      refine List.Nodup.sublist (List.take_sublist _ _) ?_
      decide
    cases res with
    | error m => exact hnd
    | ok collected => exact hnd

/-- C9 witness: the atomicity theorem applied to the oracle that fails every
fetch: the run is unsuccessful, writes nothing, and names a failing source
URL in its message. -/
theorem C9_witness :
    (mainModel (fun _ => Except.error ("boom"))).success = false ∧
    (mainModel (fun _ => Except.error ("boom"))).written = none ∧
    ∃ s msg, s ∈ SOURCES ∧
      (fun _ => Except.error ("boom") : String → Except String String) s.url
        = Except.error msg ∧
      (mainModel (fun _ => Except.error ("boom"))).errMsg
        = some ("Failed to download " ++ s.url ++ ": " ++ msg) :=
  (C9_fetch_failure_atomicity (fun _ => Except.error ("boom"))).1
    ⟨⟨"quanx",
      "https://raw.githubusercontent.com/enriquephl/QuantumultX_config/main/filters/NoMalwares.conf",
      "NoMalwares (Quantumult X)"⟩, by simp [SOURCES], "boom", rfl⟩

/-! ### Serialization round-trip (C3) -/

theorem mem_intercalateL_comma (parts : List (List Char)) (c : Char)
    (hc : c ∈ intercalateL [','] parts) : c = ',' ∨ ∃ p ∈ parts, c ∈ p := by
  induction parts with
  | nil => exact absurd hc (List.not_mem_nil c)
  | cons p rest ih =>
    cases rest with
    | nil =>
      right
      exact ⟨p, by simp, hc⟩
    | cons q rest' =>
      rw [intercalateL_cons _ _ _ (by simp)] at hc
      rw [List.mem_append, List.mem_append] at hc
      rcases hc with (hc | hc) | hc
      · right
        exact ⟨p, by simp, hc⟩
      · rw [List.mem_singleton] at hc
        exact Or.inl hc
      · rcases ih hc with hc' | ⟨p', hp', hcp'⟩
        · exact Or.inl hc'
        · exact Or.inr ⟨p', by simp [hp'], hcp'⟩

theorem intercalateL_comma_ne_nil (p : List Char) (rest : List (List Char))
    (hp : p ≠ []) : intercalateL [','] (p :: rest) ≠ [] := by
  cases rest with
  | nil => exact hp
  | cons q rest' =>
    rw [intercalateL_cons _ _ _ (by simp)]
    intro h0
    rcases List.append_eq_nil.mp h0 with ⟨h1, -⟩
    rcases List.append_eq_nil.mp h1 with ⟨h2, -⟩
    exact hp h2

theorem intercalateL_comma_head? (p : List Char) (rest : List (List Char))
    (hp : p ≠ []) : (intercalateL [','] (p :: rest)).head? = p.head? := by
  cases rest with
  | nil => rfl
  | cons q rest' =>
    rw [intercalateL_cons _ _ _ (by simp)]
    rcases p with _ | ⟨c, t⟩
    · exact absurd rfl hp
    · rw [List.append_assoc, List.cons_append, List.head?_cons, List.head?_cons]

theorem getLast?_append_right {α : Type} (a b : List α) (hb : b ≠ []) :
    (a ++ b).getLast? = b.getLast? := by
  rw [List.getLast?_append]
  rcases hx : b.getLast? with _ | x
  · rw [List.getLast?_eq_none_iff] at hx
    exact absurd hx hb
  · rfl

theorem intercalateL_comma_getLast? (parts : List (List Char))
    (hne : parts ≠ []) (hall : ∀ p ∈ parts, p ≠ []) :
    ∃ pl ∈ parts, (intercalateL [','] parts).getLast? = pl.getLast? := by
  induction parts with
  | nil => exact absurd rfl hne
  | cons p rest ih =>
    cases rest with
    | nil => exact ⟨p, by simp, rfl⟩
    | cons q rest' =>
      obtain ⟨pl, hpl, hlast⟩ := ih (by simp) (fun x hx => hall x (by simp [hx]))
      refine ⟨pl, by simp [hpl], ?_⟩
      have htail_ne : intercalateL [','] (q :: rest') ≠ [] :=
        intercalateL_comma_ne_nil q rest' (hall q (by simp))
      rw [intercalateL_cons _ _ _ (by simp), List.append_assoc]
      rw [getLast?_append_right _ _ (by simp [htail_ne])]
      rw [getLast?_append_right [','] _ htail_ne]
      exact hlast

theorem benign_line_facts (parts : List (List Char))
    (hne : parts ≠ [])
    (hb : ∀ p ∈ parts, p ≠ [] ∧ (∀ c ∈ p, isLineBreak c = false ∧ ¬ c = ',') ∧
          pyStripL p = p ∧ hasTrigger p = false) :
    splitLinesL (intercalateL [','] parts) = [intercalateL [','] parts] ∧
    pyStripL (intercalateL [','] parts) = intercalateL [','] parts ∧
    stripInlineAux (intercalateL [','] parts) = intercalateL [','] parts ∧
    (splitOnChar ',' (intercalateL [','] parts)).map pyStripL = parts ∧
    (intercalateL [','] parts).isEmpty = false := by
  rcases hp : parts with _ | ⟨p0, rest⟩
  · exact absurd hp hne
  subst hp
  have hp0 := hb p0 (by simp)
  have hline_ne : intercalateL [','] (p0 :: rest) ≠ [] :=
    intercalateL_comma_ne_nil p0 rest hp0.1
  have hnb : ∀ c ∈ intercalateL [','] (p0 :: rest), isLineBreak c = false := by
    intro c hc
    rcases mem_intercalateL_comma _ c hc with rfl | ⟨p, hpmem, hcp⟩
    · decide
    · exact ((hb p hpmem).2.1 c hcp).1
  have hstrip : pyStripL (intercalateL [','] (p0 :: rest)) = intercalateL [','] (p0 :: rest) := by
    apply pyStripL_eq_self
    · intro c hc
      rw [intercalateL_comma_head? p0 rest hp0.1] at hc
      exact pyStripL_head_not_space p0 c (by rw [hp0.2.2.1]; exact hc)
    · intro c hc
      obtain ⟨pl, hpl, hlast⟩ := intercalateL_comma_getLast? (p0 :: rest) (by simp)
        (fun x hx => (hb x hx).1)
      rw [hlast] at hc
      exact pyStripL_last_not_space pl c (by rw [(hb pl hpl).2.2.1]; exact hc)
  have htrig : hasTrigger (intercalateL [','] (p0 :: rest)) = false :=
    hasTrigger_intercalate _ (fun p hpmem => (hb p hpmem).2.2.2)
  have hsplit : splitOnChar ',' (intercalateL [','] (p0 :: rest)) = p0 :: rest :=
    splitOnChar_intercalateL ',' _ (by simp)
      (fun p hpmem hcp => ((hb p hpmem).2.1 ',' hcp).2 rfl)
  refine ⟨splitLinesL_singleton _ hline_ne hnb, hstrip,
    stripInlineAux_eq_self _ htrig, ?_, ?_⟩
  · rw [hsplit]
    rw [List.map_congr_left (fun p hpmem => (hb p hpmem).2.2.1)]
    exact List.map_id _
  · simpa using hline_ne

theorem normalizeRegexL_eq_self (v : List Char) (hstrip : pyStripL v = v)
    (hh : v.head? = some ('^')) (hl : v.getLast? = some ('$')) :
    normalizeRegexL v = v := by
  unfold normalizeRegexL
  dsimp only
  rw [hstrip]
  by_cases hb : hasBoundaryL v = true
  · rw [if_pos hb]
  · rw [if_neg hb, if_pos hh, if_pos hl]

theorem parseQuanxLineL_ipcidr (v : String) (hv : benignField v) :
    parseQuanxLineL (intercalateL [','] [("IP-CIDR" : String).data, v.data])
      = some (Rule.mk ("IP-CIDR") v []) := by
  obtain ⟨hvne, hvchars, hvstrip, hvtrig⟩ := hv
  have hb : ∀ p ∈ ([("IP-CIDR" : String).data, v.data] : List (List Char)),
      p ≠ [] ∧ (∀ c ∈ p, isLineBreak c = false ∧ ¬ c = ',') ∧
      pyStripL p = p ∧ hasTrigger p = false := by
    intro p hp
    rw [List.mem_cons, List.mem_singleton] at hp
    rcases hp with rfl | rfl
    · exact ⟨by decide, by decide, by decide, by decide⟩
    · exact ⟨hvne, hvchars, hvstrip, hvtrig⟩
  obtain ⟨hlines, hstrip, hinline, hparts, hempty⟩ := benign_line_facts _ (by simp) hb
  have hshape : intercalateL [','] ([("IP-CIDR" : String).data, v.data] : List (List Char))
      = ("IP-CIDR" : String).data ++ ',' :: v.data := by
    show ("IP-CIDR" : String).data ++ [','] ++ v.data = _
    rw [List.append_assoc, List.singleton_append]
  have hmark : isMarkerStart (intercalateL [','] ([("IP-CIDR" : String).data, v.data] : List (List Char))) = false := by
    rw [hshape]
    exact isMarkerStart_append_comma _ _ (by decide)
  unfold parseQuanxLineL
  dsimp only
  rw [hstrip]
  split
  · rename_i hcond
    rw [hempty, hmark] at hcond
    simp at hcond
  · rw [hinline, hstrip]
    split
    · rename_i hcond
      rw [hempty] at hcond
      simp at hcond
    · rw [hparts]
      split
      · rename_i hcond
        simp at hcond
      · have hd : (([("IP-CIDR" : String).data, v.data] : List (List Char)).headD [])
            = ("IP-CIDR" : String).data := rfl
        have hmap : TYPE_MAP_QUANX (List.asString (("IP-CIDR" : String).data.map pyUpperChar))
            = some ("IP-CIDR") := by decide
        split
        · rename_i hnone
          rw [hd, hmap] at hnone
          exact Option.noConfusion hnone
        · rename_i kind hkind
          rw [hd, hmap] at hkind
          rw [Option.some.injEq] at hkind
          subst hkind
          split
          · rename_i hcond
            have hx : pyStripL (([("IP-CIDR" : String).data, v.data] : List (List Char)).getD 1 []) = v.data := hvstrip
            rw [hx] at hcond
            rw [List.isEmpty_iff] at hcond
            exact absurd hcond hvne
          · have hx : pyStripL (([("IP-CIDR" : String).data, v.data] : List (List Char)).getD 1 []) = v.data := hvstrip
            rw [hx]
            rfl

theorem parseSurgeLineL_benign (rtype value : String) (options : List String)
    (ht : benignField rtype) (hmarkt : isMarkerStart rtype.data = false)
    (hupper : rtype.data.map pyUpperChar = rtype.data)
    (hv : benignField value)
    (hopts : ∀ o ∈ options, benignField o)
    (hlow : isDomainLike rtype = true → value.data.map pyLowerChar = value.data)
    (hreg : rtype = "DOMAIN-REGEX" →
      value.data.head? = some ('^') ∧ value.data.getLast? = some ('$')) :
    parseSurgeLineL (intercalateL [','] ((rtype :: value :: options).map String.data))
      = some (Rule.mk rtype value options) := by
  have hb : ∀ p ∈ (rtype :: value :: options).map String.data,
      p ≠ [] ∧ (∀ c ∈ p, isLineBreak c = false ∧ ¬ c = ',') ∧
      pyStripL p = p ∧ hasTrigger p = false := by
    intro p hp
    rcases List.mem_map.mp hp with ⟨x, hx, rfl⟩
    rw [List.mem_cons, List.mem_cons] at hx
    rcases hx with rfl | rfl | hx
    · exact ⟨ht.1, ht.2.1, ht.2.2.1, ht.2.2.2⟩
    · exact ⟨hv.1, hv.2.1, hv.2.2.1, hv.2.2.2⟩
    · have h := hopts x hx
      exact ⟨h.1, h.2.1, h.2.2.1, h.2.2.2⟩
  obtain ⟨hlines, hstrip, hinline, hparts, hempty⟩ :=
    benign_line_facts ((rtype :: value :: options).map String.data) (by simp) hb
  have hshape : intercalateL [','] ((rtype :: value :: options).map String.data)
      = rtype.data ++ ',' :: intercalateL [','] ((value :: options).map String.data) := by
    show intercalateL [','] (rtype.data :: (value :: options).map String.data) = _
    rw [intercalateL_cons _ _ _ (by simp), List.append_assoc, List.singleton_append]
  have hmark : isMarkerStart (intercalateL [','] ((rtype :: value :: options).map String.data)) = false := by
    rw [hshape]
    exact isMarkerStart_append_comma _ _ hmarkt
  unfold parseSurgeLineL
  dsimp only
  rw [hstrip]
  split
  · rename_i hcond
    rw [hempty, hmark] at hcond
    simp at hcond
  · rw [hinline, hstrip]
    split
    · rename_i hcond
      rw [hempty] at hcond
      simp at hcond
    · rw [hparts]
      split
      · rename_i hcond
        simp only [List.length_map, List.length_cons] at hcond
        omega
      · have hG : pyStripL (((rtype :: value :: options).map String.data).getD 1 [])
            = value.data := hv.2.2.1
        have hkind : List.asString ((((rtype :: value :: options).map String.data).headD []).map pyUpperChar)
            = rtype := by
          show List.asString (rtype.data.map pyUpperChar) = rtype
          rw [hupper]
          exact data_asString rtype
        split
        · rename_i hcond
          rw [hG, List.isEmpty_iff] at hcond
          exact absurd hcond hv.1
        · rw [hG]
          simp only [hkind]
          have hdrop : ((rtype :: value :: options).map String.data).drop 2
              = options.map String.data := rfl
          have hoptsEq : ((options.map String.data).filterMap (fun it =>
              if (pyStripL it).isEmpty then none
              else some (List.asString (pyStripL it)))) = options := by
            rw [List.filterMap_map]
            have := filterMap_eq_map_on options
              (fun o => if (pyStripL o.data).isEmpty then none
                else some (List.asString (pyStripL o.data)))
              (fun o => o) ?_
            · simpa using this
            · intro o ho
              have hos := hopts o ho
              show (if (pyStripL o.data).isEmpty = true then none
                else some (List.asString (pyStripL o.data))) = some o
              simp only [hos.2.2.1]
              rw [if_neg (by simp [hos.1])]
              rw [data_asString]
          have hoptsFinal : (if ((rtype :: value :: options).map String.data).length > 2 then
              (((rtype :: value :: options).map String.data).drop 2).filterMap (fun it =>
                if (pyStripL it).isEmpty then none
                else some (List.asString (pyStripL it)))
              else []) = options := by
            by_cases ho : options = []
            · subst ho
              rw [if_neg (by simp)]
            · rw [if_pos (by
                simp only [List.length_map, List.length_cons]
                have := List.length_pos.mpr ho
                omega)]
              rw [hdrop]
              exact hoptsEq
          by_cases hdl : isDomainLike rtype = true
          · have hnr : ¬ rtype = "DOMAIN-REGEX" := by
              intro h0
              rw [h0] at hdl
              exact absurd hdl (by decide)
            simp only [hdl, if_true, hlow hdl, if_neg hnr, hoptsFinal]
            rw [data_asString]
          · simp only [Bool.not_eq_true] at hdl
            simp only [hdl, Bool.false_eq_true, if_false, hoptsFinal]
            by_cases hrg : rtype = "DOMAIN-REGEX"
            · obtain ⟨hh, hl⟩ := hreg hrg
              simp only [hrg, if_true]
              rw [normalizeRegexL_eq_self value.data hv.2.2.1 hh hl, data_asString]
            · simp only [if_neg hrg]
              rw [data_asString]

/-- C3 amended: serialization round-trips only in restricted form.
Quantumult-style adapter: a rule whose serialized type token the adapter
recognizes and maps to itself (`IP-CIDR`) round-trips when its options are
empty and its value is benign (the adapter drops the first non-empty field
after the value as the policy-group name, so non-empty options do not
round-trip — see the counterexample).  Surge-style adapter: a rule with
benign upper-case non-comment-marker type, benign value and options,
lower-cased domain-like value and `^...$`-anchored DOMAIN-REGEX value parses
back to exactly the original rule. -/
theorem C3_amended_round_trip :
    (∀ v : String, benignField v →
      parse_quanx (Rule.mk ("IP-CIDR") v []).to_line = [Rule.mk ("IP-CIDR") v []]) ∧
    (∀ r : Rule, benignField r.rtype → isMarkerStart r.rtype.data = false →
      r.rtype.data.map pyUpperChar = r.rtype.data →
      benignField r.value → (∀ o ∈ r.options, benignField o) →
      (isDomainLike r.rtype = true → r.value.data.map pyLowerChar = r.value.data) →
      (r.rtype = "DOMAIN-REGEX" →
        r.value.data.head? = some ('^') ∧ r.value.data.getLast? = some ('$')) →
      parse_surge r.to_line = [r]) := by
  constructor
  · intro v hv
    unfold parse_quanx
    have hto : (Rule.mk ("IP-CIDR") v []).to_line.data
        = intercalateL [','] [("IP-CIDR" : String).data, v.data] := rfl
    rw [hto]
    have hb : ∀ p ∈ ([("IP-CIDR" : String).data, v.data] : List (List Char)),
        p ≠ [] ∧ (∀ c ∈ p, isLineBreak c = false ∧ ¬ c = ',') ∧
        pyStripL p = p ∧ hasTrigger p = false := by
      intro p hp
      rw [List.mem_cons, List.mem_singleton] at hp
      rcases hp with rfl | rfl
      · exact ⟨by decide, by decide, by decide, by decide⟩
      · exact ⟨hv.1, hv.2.1, hv.2.2.1, hv.2.2.2⟩
    obtain ⟨hlines, -, -, -, -⟩ := benign_line_facts _ (by simp) hb
    rw [hlines]
    simp only [List.filterMap_cons, List.filterMap_nil]
    rw [parseQuanxLineL_ipcidr v hv]
  · intro r ht hmarkt hupper hv hopts hlow hreg
    unfold parse_surge
    have hto : r.to_line.data
        = intercalateL [','] ((r.rtype :: r.value :: r.options).map String.data) := rfl
    rw [hto]
    have hb : ∀ p ∈ (r.rtype :: r.value :: r.options).map String.data,
        p ≠ [] ∧ (∀ c ∈ p, isLineBreak c = false ∧ ¬ c = ',') ∧
        pyStripL p = p ∧ hasTrigger p = false := by
      intro p hp
      rcases List.mem_map.mp hp with ⟨x, hx, rfl⟩
      rw [List.mem_cons, List.mem_cons] at hx
      rcases hx with rfl | rfl | hx
      · exact ⟨ht.1, ht.2.1, ht.2.2.1, ht.2.2.2⟩
      · exact ⟨hv.1, hv.2.1, hv.2.2.1, hv.2.2.2⟩
      · have h := hopts x hx
        exact ⟨h.1, h.2.1, h.2.2.1, h.2.2.2⟩
    obtain ⟨hlines, -, -, -, -⟩ := benign_line_facts _ (by simp) hb
    rw [hlines]
    simp only [List.filterMap_cons, List.filterMap_nil]
    rw [parseSurgeLineL_benign r.rtype r.value r.options ht hmarkt hupper hv hopts hlow hreg]

/-- C3 witness: the amended round-trip applied to the concrete rules
`IP-CIDR,10.0.0.0/8` (Quantumult-style, empty options) and
`DOMAIN-SUFFIX,ads.example.com,REJECT` (Surge-style, one option). -/
theorem C3_witness :
    parse_quanx (Rule.mk ("IP-CIDR") ("10.0.0.0/8") []).to_line
        = [Rule.mk ("IP-CIDR") ("10.0.0.0/8") []] ∧
    parse_surge (Rule.mk ("DOMAIN-SUFFIX") ("ads.example.com") ["REJECT"]).to_line
        = [Rule.mk ("DOMAIN-SUFFIX") ("ads.example.com") ["REJECT"]] :=
  ⟨C3_amended_round_trip.1 ("10.0.0.0/8") (by decide),
   C3_amended_round_trip.2 (Rule.mk ("DOMAIN-SUFFIX") ("ads.example.com") ["REJECT"])
     (by decide) (by decide) (by decide) (by decide) (by decide) (by decide) (by decide)⟩
